import Mathlib

/-!
Verification of the JWT editor core (codec, field synchronization, batch
re-signing, history, expiration conversion) against its specification.

The application code (src/src/App.jsx) delegates the cryptographic and
serialization primitives to external libraries (the jose npm package, the
browser JSON, Date and TextEncoder built-ins).  Those primitives are not part
of the repository source, so they are modelled here from the specification
(each such definition carries a doc comment starting with
"Modelled from the spec:").  Everything else (edit handlers, the verify
effect, history push, the batch loop, expiration editing) is translated
directly from App.jsx.

Conventions: bytes are `Nat` (meaningful values are < 256), text is
`List Char`, secrets are byte lists (the UTF-8 encoding of the secret text),
machine integers are `Int`.
-/

set_option maxHeartbeats 4000000
set_option maxRecDepth 20000

/-! ## Generic list utilities -/

/-- Splitting a list at every occurrence of a separator, as JavaScript
`String.prototype.split` does: `split '.' "" = [""]`, `split '.' "a..b" =
["a", "", "b"]`. -/
def splitOnAny {α : Type} [DecidableEq α] (sep : α) : List α → List (List α)
  | [] => [[]]
  | c :: rest =>
    if c = sep then [] :: splitOnAny sep rest
    else
      match splitOnAny sep rest with
      | [] => [[c]]
      | s :: ss => (c :: s) :: ss

/-- JavaScript `value.trim() === ''` test: empty or all-whitespace text. -/
def isBlank (t : List Char) : Bool := t.all (fun c => c.isWhitespace)

/-- JavaScript `String.prototype.trim`: strip whitespace from both ends. -/
def trimChars (t : List Char) : List Char :=
  ((t.dropWhile Char.isWhitespace).reverse.dropWhile Char.isWhitespace).reverse

/-! ## Base64URL (RFC 4648 section 5, unpadded)

Modelled from the spec: the wire format section requires all three JWT
segments to be unpadded Base64URL; the encoding itself is performed inside
the external jose library. -/

/-- The 64-character Base64URL alphabet. -/
def b64Alphabet : List Char :=
  ("ABCDEFGHIJKLMNOPQRSTUVWXYZabcdefghijklmnopqrstuvwxyz0123456789-_").data

/-- Character for a 6-bit group. -/
def b64Char (n : Nat) : Char := b64Alphabet.getD n 'A'

/-- Index of a character in a character list. -/
def idxOfChar : List Char → Char → Option Nat
  | [], _ => none
  | a :: rest, c => if a = c then some 0 else (idxOfChar rest c).map (· + 1)

/-- 6-bit value of a Base64URL character, `none` for foreign characters. -/
def b64Val (c : Char) : Option Nat := idxOfChar b64Alphabet c

/-- Modelled from the spec: unpadded Base64URL encoding of a byte sequence
(RFC 4648 section 5), performed inside jose in the source. -/
def b64Encode : List Nat → List Char
  | [] => []
  | [a] => [b64Char (a / 4), b64Char (a % 4 * 16)]
  | [a, b] => [b64Char (a / 4), b64Char (a % 4 * 16 + b / 16), b64Char (b % 16 * 4)]
  | a :: b :: c :: rest =>
    b64Char (a / 4) :: b64Char (a % 4 * 16 + b / 16) ::
      b64Char (b % 16 * 4 + c / 64) :: b64Char (c % 64) :: b64Encode rest

/-- Modelled from the spec: unpadded Base64URL decoding, `none` on foreign
characters or an impossible length. -/
def b64Decode : List Char → Option (List Nat)
  | [] => some []
  | [_] => none
  | [c1, c2] =>
    match b64Val c1, b64Val c2 with
    | some v1, some v2 => some [v1 * 4 + v2 / 16]
    | _, _ => none
  | [c1, c2, c3] =>
    match b64Val c1, b64Val c2, b64Val c3 with
    | some v1, some v2, some v3 => some [v1 * 4 + v2 / 16, v2 % 16 * 16 + v3 / 4]
    | _, _, _ => none
  | c1 :: c2 :: c3 :: c4 :: rest =>
    match b64Val c1, b64Val c2, b64Val c3, b64Val c4, b64Decode rest with
    | some v1, some v2, some v3, some v4, some bs =>
      some ((v1 * 4 + v2 / 16) :: (v2 % 16 * 16 + v3 / 4) :: (v3 % 4 * 64 + v4) :: bs)
    | _, _, _, _, _ => none

/-! ## Decimal digits -/

/-- Decimal digit bytes of a natural number, most significant first; the
first argument is recursion fuel (`natDigits` supplies enough). -/
def natDigitsAux : Nat → Nat → List Nat
  | 0, n => [48 + n % 10]
  | fuel + 1, n => if n < 10 then [48 + n] else natDigitsAux fuel (n / 10) ++ [48 + n % 10]

/-- Decimal digit bytes of a natural number, most significant first. -/
def natDigits (n : Nat) : List Nat := natDigitsAux n n

/-- Value of a big-endian list of decimal digit bytes. -/
def digitsVal (ds : List Nat) : Nat := ds.foldl (fun acc d => acc * 10 + (d - 48)) 0

/-- Test for an ASCII decimal digit byte. -/
def isDigitB (b : Nat) : Bool := 48 ≤ b && b ≤ 57

/-- Parse a maximal nonempty run of decimal digits from the front. -/
def parseNatBytes (inp : List Nat) : Option (Nat × List Nat) :=
  match inp.takeWhile isDigitB with
  | [] => none
  | ds => some (digitsVal ds, inp.dropWhile isDigitB)

/-- Decimal byte representation of an integer (minus sign, then digits). -/
def intSerBytes (i : Int) : List Nat :=
  if i < 0 then 45 :: natDigits (-i).toNat else natDigits i.toNat

/-- Parse an optionally negated run of decimal digits from the front. -/
def parseIntBytes (inp : List Nat) : Option (Int × List Nat) :=
  match inp with
  | 45 :: rest => (parseNatBytes rest).map (fun p => (-(p.1 : Int), p.2))
  | _ => (parseNatBytes inp).map (fun p => ((p.1 : Int), p.2))

/-! ## JSON

Modelled from the spec: claims JSON per RFC 8259.  JSON values are handled by
the browser built-ins (`JSON.stringify` / `JSON.parse`) and inside jose in
the source.  String contents and object keys are carried as UTF-8 byte
sequences; numbers are the integers (the claims the tool manipulates —
`exp`, `nbf`, `iat` — are integer seconds since the epoch). -/

inductive Json where
  | jnull
  | jbool (b : Bool)
  | jnum (n : Int)
  | jstr (s : List Nat)
  | jarr (elems : List Json)
  | jobj (members : List (List Nat × Json))

/-- Escaping of quote and backslash bytes inside a JSON string literal. -/
def escBytes : List Nat → List Nat
  | [] => []
  | b :: rest => if b = 34 ∨ b = 92 then 92 :: b :: escBytes rest else b :: escBytes rest

mutual

/-- Modelled from the spec: compact (whitespace-free) JSON serialization to
UTF-8 bytes, as `JSON.stringify` and jose produce for signing. -/
def serialize : Json → List Nat
  | .jnull => [110, 117, 108, 108]
  | .jbool true => [116, 114, 117, 101]
  | .jbool false => [102, 97, 108, 115, 101]
  | .jnum i => intSerBytes i
  | .jstr s => 34 :: escBytes s ++ [34]
  | .jarr [] => [91, 93]
  | .jarr (e :: es) => 91 :: serialize e ++ serTail es ++ [93]
  | .jobj [] => [123, 125]
  | .jobj ((k, v) :: ms) =>
    123 :: (34 :: escBytes k ++ [34, 58]) ++ serialize v ++ serMTail ms ++ [125]

/-- Comma-prefixed serialization of the remaining array elements. -/
def serTail : List Json → List Nat
  | [] => []
  | e :: es => 44 :: serialize e ++ serTail es

/-- Comma-prefixed serialization of the remaining object members. -/
def serMTail : List (List Nat × Json) → List Nat
  | [] => []
  | (k, v) :: ms => 44 :: (34 :: escBytes k ++ [34, 58]) ++ serialize v ++ serMTail ms

end

/-- A JSON value is serializable to a well-formed byte sequence when every
byte of its serialization is an actual byte. -/
def wfJson (j : Json) : Prop := ∀ b ∈ serialize j, b < 256

instance (j : Json) : Decidable (wfJson j) :=
  inferInstanceAs (Decidable (∀ b ∈ serialize j, b < 256))

/-- Body of a JSON string literal (after the opening quote), returning the
unescaped content and the input after the closing quote. -/
def parseStringBody : List Nat → Option (List Nat × List Nat)
  | [] => none
  | 34 :: rest => some ([], rest)
  | 92 :: b :: rest =>
    if b = 34 ∨ b = 92 then (parseStringBody rest).map (fun p => (b :: p.1, p.2)) else none
  | b :: rest => (parseStringBody rest).map (fun p => (b :: p.1, p.2))

/-- Remaining elements of a JSON array after the first: a closing bracket or
a comma followed by a value, repeatedly.  `pv` parses one value; the `Nat`
argument is recursion fuel. -/
def parseTail (pv : List Nat → Option (Json × List Nat)) :
    Nat → List Nat → Option (List Json × List Nat)
  | 0, _ => none
  | _ + 1, 93 :: rest => some ([], rest)
  | fuel + 1, 44 :: rest =>
    match pv rest with
    | some (e, r1) =>
      match parseTail pv fuel r1 with
      | some (es, r2) => some (e :: es, r2)
      | none => none
    | none => none
  | _ + 1, _ => none

/-- Remaining members of a JSON object after the first. -/
def parseMTail (pv : List Nat → Option (Json × List Nat)) :
    Nat → List Nat → Option (List (List Nat × Json) × List Nat)
  | 0, _ => none
  | _ + 1, 125 :: rest => some ([], rest)
  | fuel + 1, 44 :: 34 :: rest =>
    match parseStringBody rest with
    | some (k, r1) =>
      match r1 with
      | 58 :: r2 =>
        match pv r2 with
        | some (v, r3) =>
          match parseMTail pv fuel r3 with
          | some (ms, r4) => some ((k, v) :: ms, r4)
          | none => none
        | none => none
      | _ => none
    | none => none
  | _ + 1, _ => none

/-- Modelled from the spec: parser for compact JSON (the inverse direction of
`serialize`, as `JSON.parse` and the decoding side of jose perform it).
Fuel-indexed; `parseTop` supplies sufficient fuel. -/
def parseJ : Nat → List Nat → Option (Json × List Nat)
  | 0, _ => none
  | _ + 1, [] => none
  | fuel + 1, b :: rest =>
    if b = 110 then
      match rest with
      | 117 :: 108 :: 108 :: r => some (.jnull, r)
      | _ => none
    else if b = 116 then
      match rest with
      | 114 :: 117 :: 101 :: r => some (.jbool true, r)
      | _ => none
    else if b = 102 then
      match rest with
      | 97 :: 108 :: 115 :: 101 :: r => some (.jbool false, r)
      | _ => none
    else if b = 34 then
      match parseStringBody rest with
      | some (s, r1) => some (.jstr s, r1)
      | none => none
    else if b = 91 then
      if rest.headD 0 = 93 then some (.jarr [], rest.drop 1)
      else
        match parseJ fuel rest with
        | some (e, r1) =>
          match parseTail (parseJ fuel) fuel r1 with
          | some (es, r2) => some (.jarr (e :: es), r2)
          | none => none
        | none => none
    else if b = 123 then
      if rest.headD 0 = 125 then some (.jobj [], rest.drop 1)
      else
        match rest with
        | 34 :: r0 =>
          match parseStringBody r0 with
          | some (k, r1) =>
            match r1 with
            | 58 :: r2 =>
              match parseJ fuel r2 with
              | some (v, r3) =>
                match parseMTail (parseJ fuel) fuel r3 with
                | some (ms, r4) => some (.jobj ((k, v) :: ms), r4)
                | none => none
              | none => none
            | _ => none
          | none => none
        | _ => none
    else
      match parseIntBytes (b :: rest) with
      | some (i, r) => some (.jnum i, r)
      | none => none

/-- Parse a byte sequence as one complete JSON value. -/
def parseTop (bs : List Nat) : Option Json :=
  match parseJ (bs.length + 1) bs with
  | some (j, []) => some j
  | _ => none

/-! ## JWT codec (section 4.1 of the spec)

The codec functions live inside the external jose library in the source
(`SignJWT`, `decodeProtectedHeader` / `decodeJwt`, `jwtVerify`); they are
modelled from the spec here. -/

/-- Test whether a JSON value is an object. -/
def isObjB : Json → Bool
  | .jobj _ => true
  | _ => false

/-- First value bound to a key in a member list. -/
def lookupMember : List (List Nat × Json) → List Nat → Option Json
  | [], _ => none
  | (k, v) :: ms, key => if k = key then some v else lookupMember ms key

/-- Value of a claim in a JSON object (`none` on non-objects). -/
def getMember : Json → List Nat → Option Json
  | .jobj ms, key => lookupMember ms key
  | _, _ => none

/-- JavaScript property assignment on an object's member list: replace in
place when the key is present, append otherwise. -/
def setMemberList (ms : List (List Nat × Json)) (key : List Nat) (v : Json) :
    List (List Nat × Json) :=
  if ms.any (fun kv => kv.1 = key) then
    ms.map (fun kv => if kv.1 = key then (kv.1, v) else kv)
  else ms ++ [(key, v)]

/-- JavaScript property assignment `obj[key] = v` (identity on non-objects). -/
def setMember : Json → List Nat → Json → Json
  | .jobj ms, key, v => .jobj (setMemberList ms key v)
  | j, _, _ => j

/-- The closed set of supported signing algorithms. -/
inductive Alg where
  | HS256
  | HS384
  | HS512
  deriving DecidableEq

/-- Byte tag distinguishing the three algorithms inside the modelled MAC. -/
def algTag : Alg → Nat
  | .HS256 => 2
  | .HS384 => 3
  | .HS512 => 4

/-- UTF-8 bytes of the claim name `alg`. -/
def algKey : List Nat := [97, 108, 103]

/-- The algorithm of a header object, when its `alg` claim is one of the
supported `HS256` / `HS384` / `HS512` strings (`supportedAlgorithms.includes`
in `generateToken`). -/
def supportedAlgOf (h : Json) : Option Alg :=
  match getMember h algKey with
  | some (.jstr s) =>
    if s = [72, 83, 50, 53, 54] then some .HS256
    else if s = [72, 83, 51, 56, 52] then some .HS384
    else if s = [72, 83, 53, 49, 50] then some .HS512
    else none
  | _ => none

/-- Modelled from the spec: `HMAC(hash(alg), secret, signingInput)` per
RFC 2104 with SHA-256/384/512, computed by WebCrypto inside jose.  The
hash is external, so the MAC is modelled as an ideal (collision-free) MAC:
an encoding of the triple (algorithm, key, message) that is injective in
each component — a unary length tag for the key, then the key, the message
and the algorithm tag.  All output bytes are bytes whenever the key and
message bytes are. -/
def hmac (alg : Alg) (key msg : List Nat) : List Nat :=
  List.replicate key.length 1 ++ 0 :: (key ++ msg ++ [algTag alg])

/-- The HMAC signing input: the ASCII bytes of `segment1 ++ "." ++ segment2`. -/
def signingInput (s1 s2 : List Char) : List Nat := (s1 ++ '.' :: s2).map Char.toNat

/-- Modelled from the spec: `Encode(header, payload, secret)` — serialize
both objects to compact JSON, Base64URL the two segments, MAC the signing
input, Base64URL the MAC, join with dots.  `none` (no token at all) when
`alg` is outside the closed set. -/
def encodeJWT (h p : Json) (secret : List Nat) : Option (List Char) :=
  match supportedAlgOf h with
  | none => none
  | some alg =>
    let s1 := b64Encode (serialize h)
    let s2 := b64Encode (serialize p)
    let sig := b64Encode (hmac alg secret (signingInput s1 s2))
    some (s1 ++ '.' :: s2 ++ '.' :: sig)

/-- Errors of the decoding side: `invalidFormat` when the compact form does
not split into exactly 3 non-empty dot-separated segments, `decodeFailure`
for any later failure (bad Base64URL, bad JSON, non-object claims,
unsupported algorithm during verification). -/
inductive DecodeErr where
  | invalidFormat
  | decodeFailure
  deriving DecidableEq

/-- Split a token into its 3 non-empty dot-separated segments. -/
def split3 (t : List Char) : Option (List Char × List Char × List Char) :=
  match splitOnAny '.' t with
  | [a, b, c] => if a ≠ [] ∧ b ≠ [] ∧ c ≠ [] then some (a, b, c) else none
  | _ => none

/-- Modelled from the spec: `Decode(token)` (`decodeProtectedHeader` +
`decodeJwt` in the source) — require exactly 3 non-empty segments, then
Base64URL-decode and JSON-parse segments 1 and 2, both of which must be
objects.  Segment 3 is never touched and no secret is involved. -/
def decodeJWT (t : List Char) : Except DecodeErr (Json × Json) :=
  match split3 t with
  | none => .error .invalidFormat
  | some (a, b, _) =>
    match b64Decode a, b64Decode b with
    | some hb, some pb =>
      match parseTop hb, parseTop pb with
      | some h, some p =>
        if isObjB h ∧ isObjB p then .ok (h, p) else .error .decodeFailure
      | _, _ => .error .decodeFailure
    | _, _ => .error .decodeFailure

/-- Modelled from the spec: `Verify(token, secret)` (`jwtVerify` with
`clockTolerance: Infinity` in the source) — split, decode the header to
learn `alg`, recompute the MAC over the literal first two segments, compare
with the decoded third segment.  `exp`, `nbf` and `iat` are never
evaluated. -/
def verifyJWT (t : List Char) (secret : List Nat) : Except DecodeErr Bool :=
  match split3 t with
  | none => .error .invalidFormat
  | some (a, b, c) =>
    match b64Decode a with
    | none => .error .decodeFailure
    | some hb =>
      match parseTop hb with
      | none => .error .decodeFailure
      | some h =>
        match supportedAlgOf h with
        | none => .error .decodeFailure
        | some alg =>
          .ok (b64Decode c = some (hmac alg secret (signingInput a b)))

/-! ## The editing session (SyncController, section 4.3)

State and event handlers translated from App.jsx.  The display texts stored
in `header` / `payload` are modelled with compact serialization (the source
uses `JSON.stringify(-, null, 2)`; only whitespace differs, and `JSON.parse`
ignores it).  The expiration-editor fields and the modal flags carry no
invariants claimed here and are omitted. -/

/-- The `errorType` values of the `tokenParts` state. -/
inductive PartsErr where
  | noErr
  | invalidFormat
  | invalidJson
  | emptySecret
  deriving DecidableEq

/-- The `tokenParts` state driving the color-coded display. -/
structure TokenParts where
  headerSeg : List Char
  payloadSeg : List Char
  signatureSeg : List Char
  err : PartsErr
  deriving DecidableEq

/-- A history entry (`{token, header, payload}`; the id and timestamp fields
are wall-clock values external to the core). -/
structure HistoryEntry where
  token : List Char
  header : Json
  payload : Json

/-- The observable session state. -/
structure AppState where
  token : List Char
  header : List Char
  payload : List Char
  secret : List Char
  isVerified : Option Bool
  algorithmSupported : Bool
  tokenParts : TokenParts
  tokenHistory : List HistoryEntry

/-- The four edit events of the session. -/
inductive Event where
  | editHeader (text : List Char)
  | editPayload (text : List Char)
  | editSecret (text : List Char)
  | editToken (text : List Char)

/-- `updateTokenParts` from App.jsx: clear on blank input, split into 3
non-empty segments, otherwise the `invalidFormat` error state. -/
def updateTokenParts (jwtToken : List Char) : TokenParts :=
  if isBlank jwtToken then ⟨[], [], [], .noErr⟩
  else
    match splitOnAny '.' jwtToken with
    | [a, b, c] =>
      if a ≠ [] ∧ b ≠ [] ∧ c ≠ [] then ⟨a, b, c, .noErr⟩
      else ⟨[], [], [], .invalidFormat⟩
    | _ => ⟨[], [], [], .invalidFormat⟩

/-- `JSON.parse` of a display text (compact model). -/
def jsonParseText (t : List Char) : Option Json := parseTop (t.map Char.toNat)

/-- `JSON.stringify` of an object for display (compact model). -/
def stringifyText (j : Json) : List Char := (serialize j).map Char.ofNat

/-- Modelled from the spec: `new TextEncoder().encode(secretKey)` — the
UTF-8 bytes of the secret text (codepoints, which agrees with UTF-8 on
ASCII secrets and stays injective in general). -/
def secretBytes (s : List Char) : List Nat := s.map Char.toNat

/-- `saveToHistory` from App.jsx: prepend the new entry and keep the first
10 (`[historyItem, ...tokenHistory].slice(0, 10)`). -/
def saveToHistory (jwt : List Char) (headerObj payloadObj : Json)
    (tokenHistory : List HistoryEntry) : List HistoryEntry :=
  ({ token := jwt, header := headerObj, payload := payloadObj } :: tokenHistory).take 10

/-- `generateToken` from App.jsx as a state transformer: record algorithm
support; when unsupported return without producing a token; otherwise sign,
store the token, refresh the parts display, and push a history entry. -/
def generateToken (s : AppState) (headerObj payloadObj : Json)
    (secretKey : List Char) : AppState :=
  let supported := (supportedAlgOf headerObj).isSome
  let s1 := { s with algorithmSupported := supported }
  match encodeJWT headerObj payloadObj (secretBytes secretKey) with
  | none => s1
  | some jwt =>
    { s1 with
      token := jwt,
      tokenParts := updateTokenParts jwt,
      tokenHistory := saveToHistory jwt headerObj payloadObj s1.tokenHistory }

/-- The `tokenParts` error state for unparseable header or payload JSON. -/
def jsonErrorParts : TokenParts := ⟨[], [], [], .invalidJson⟩

/-- The `tokenParts` error state for an empty secret. -/
def emptySecretParts : TokenParts := ⟨[], [], [], .emptySecret⟩

/-- `handleHeaderChange` from App.jsx. -/
def handleHeaderChange (s : AppState) (value : List Char) : AppState :=
  let s0 := { s with header := value }
  match jsonParseText value, jsonParseText s.payload with
  | some hObj, some pObj => generateToken s0 hObj pObj s.secret
  | _, _ => { s0 with tokenParts := jsonErrorParts }

/-- `handlePayloadChange` from App.jsx (the expiration-editor refresh has no
bearing on the session fields modelled here). -/
def handlePayloadChange (s : AppState) (value : List Char) : AppState :=
  let s0 := { s with payload := value }
  match jsonParseText s.header, jsonParseText value with
  | some hObj, some pObj => generateToken s0 hObj pObj s.secret
  | _, _ => { s0 with tokenParts := jsonErrorParts }

/-- `handleSecretChange` from App.jsx. -/
def handleSecretChange (s : AppState) (value : List Char) : AppState :=
  let s0 := { s with secret := value }
  if isBlank value then { s0 with tokenParts := emptySecretParts }
  else
    match jsonParseText s.header, jsonParseText s.payload with
    | some hObj, some pObj => generateToken s0 hObj pObj value
    | _, _ => s0

/-- `handleTokenChange` from App.jsx: store the text and its parts; on a
successful decode overwrite the header and payload texts; on a failed
decode set the verification state to indeterminate. -/
def handleTokenChange (s : AppState) (value : List Char) : AppState :=
  let s0 := { s with token := value, tokenParts := updateTokenParts value }
  match decodeJWT value with
  | .ok (h, p) => { s0 with header := stringifyText h, payload := stringifyText p }
  | .error _ => { s0 with isVerified := none }

/-- `verifyToken` from App.jsx: any verification error (including a bad
format) surfaces as a `false` verdict. -/
def verifyToken (jwtToken : List Char) (secretKey : List Nat) : Bool :=
  match verifyJWT jwtToken secretKey with
  | .ok b => b
  | .error _ => false

/-- The `useEffect` re-verification: runs after a handler whenever the token
or the secret changed and both are non-empty (JavaScript truthiness of
`token && secret`), and overwrites `isVerified` with the fresh verdict. -/
def applyVerifyEffect (old new : AppState) : AppState :=
  if (new.token ≠ old.token ∨ new.secret ≠ old.secret) ∧ new.token ≠ [] ∧ new.secret ≠ [] then
    { new with isVerified := some (verifyToken new.token (secretBytes new.secret)) }
  else new

/-- One editing step: the event's handler followed by the verify effect. -/
def step (s : AppState) : Event → AppState
  | .editHeader v => applyVerifyEffect s (handleHeaderChange s v)
  | .editPayload v => applyVerifyEffect s (handlePayloadChange s v)
  | .editSecret v => applyVerifyEffect s (handleSecretChange s v)
  | .editToken v => applyVerifyEffect s (handleTokenChange s v)

/-- UTF-8 bytes of the claim name `typ`. -/
def typKey : List Nat := [116, 121, 112]

/-- UTF-8 bytes of the claim name `exp`. -/
def expKey : List Nat := [101, 120, 112]

/-- UTF-8 bytes of the claim name `iat`. -/
def iatKey : List Nat := [105, 97, 116]

/-- The default header of App.jsx. -/
def defaultHeader : Json :=
  .jobj [(algKey, .jstr [72, 83, 50, 53, 54]), (typKey, .jstr [74, 87, 84])]

/-- The default payload of App.jsx; `now` is the mount-time clock reading. -/
def defaultPayload (now : Int) : Json :=
  .jobj [([115, 117, 98], .jstr [49, 50, 51, 52, 53, 54, 55, 56, 57, 48]),
         ([110, 97, 109, 101], .jstr [74, 111, 104, 110, 32, 68, 111, 101]),
         (iatKey, .jnum now),
         (expKey, .jnum (now + 3600))]

/-- The initial secret of App.jsx. -/
def initSecret : List Char := ("your-256-bit-secret").data

/-- The initial session state (before the mount-time initial generation,
which behaves like an `editHeader` event with the default header text). -/
def initState (now : Int) : AppState :=
  { token := [], header := stringifyText defaultHeader,
    payload := stringifyText (defaultPayload now), secret := initSecret,
    isVerified := none, algorithmSupported := true,
    tokenParts := ⟨[], [], [], .noErr⟩, tokenHistory := [] }

/-- The states an editing session can reach. -/
inductive Reachable : AppState → Prop where
  | init (now : Int) : Reachable (initState now)
  | next {s : AppState} (h : Reachable s) (e : Event) : Reachable (step s e)

/-! ## Batch reprocessing (section 4.4) -/

/-- A successful batch line (`processedTokens.push({...})` in App.jsx). -/
structure BatchSuccess where
  original : List Char
  newToken : List Char
  header : Json
  payload : Json
  newExp : Int
  lineNumber : Nat

/-- One batch line: decode (header and payload segments only), overwrite the
`exp` claim, re-sign with the session secret.  `none` when the decode or
the signing throws — both are caught by the same `try` in the source. -/
def decodeAndSign (secret : List Nat) (newExpTime : Int) (tok : List Char) :
    Option (Json × Json × List Char) :=
  match decodeJWT tok with
  | .error _ => none
  | .ok (h, p) =>
    let p2 := setMember p expKey (.jnum newExpTime)
    match encodeJWT h p2 secret with
    | some nt => some (h, p2, nt)
    | none => none

/-- The loop of `processBatchTokens` from App.jsx over the (already
filtered) token lines, starting at 0-based index `i`: each trimmed line is
processed independently; a success appends a `BatchSuccess` with 1-based
line number, a failure appends the line number to the error list. -/
def processBatchTokens (secret : List Nat) (newExpTime : Int) :
    Nat → List (List Char) → List BatchSuccess × List Nat
  | _, [] => ([], [])
  | i, tok :: rest =>
    let r := processBatchTokens secret newExpTime (i + 1) rest
    match decodeAndSign secret newExpTime (trimChars tok) with
    | some (h, p2, nt) =>
      ({ original := trimChars tok, newToken := nt, header := h, payload := p2,
         newExp := newExpTime, lineNumber := i + 1 } :: r.1, r.2)
    | none => (r.1, (i + 1) :: r.2)

/-- The line list fed to the batch loop: split the textarea on newlines and
drop blank lines (`batchTokens.split('\n').filter(t => t.trim())`). -/
def batchLines (raw : List Char) : List (List Char) :=
  (splitOnAny '\n' raw).filter (fun t => !isBlank t)

/-- The batch loop body for one enumerated line, success side: `some` of the
results entry the line contributes, `none` when it fails. -/
def batchResultEntry (secret : List Nat) (newExpTime : Int) (p : Nat × List Char) :
    Option BatchSuccess :=
  match decodeAndSign secret newExpTime (trimChars p.2) with
  | some (h, p2, nt) =>
    some { original := trimChars p.2, newToken := nt, header := h, payload := p2,
           newExp := newExpTime, lineNumber := p.1 + 1 }
  | none => none

/-- The batch loop body for one enumerated line, error side: `some` of the
reported line number when the line fails, `none` when it succeeds. -/
def batchErrorEntry (secret : List Nat) (newExpTime : Int) (p : Nat × List Char) :
    Option Nat :=
  match decodeAndSign secret newExpTime (trimChars p.2) with
  | some _ => none
  | none => some (p.1 + 1)

/-- Replay of a sequence of successful encodes into an initially empty
history store, each through `saveToHistory`. -/
def pushAllHistory (items : List HistoryEntry) : List HistoryEntry :=
  items.foldl (fun hist it => saveToHistory it.token it.header it.payload hist) []

/-! ## Expiration conversion (ExpirationConverter, section 4.2)

Modelled from the spec: the source converts through the JavaScript `Date`
built-in (`toISOString().slice(0, 16)` for display, `new Date(value +
':00Z').getTime()` for parsing).  `Date` is external, so the proleptic
Gregorian calendar is modelled here with the standard
era/century/quadrennium/year decomposition.  The `Local` mode is the same
textual shape converted through the host timezone; no claim depends on it
and it is not modelled. -/

/-- The expiration display modes covered by the claims. -/
inductive ExpMode where
  | epoch
  | gmt

/-- Modelled from the spec: days since 1970-01-01 to the proleptic Gregorian
civil date (year, month, day), valid for all integers. -/
def civilFromDays (z : Int) : Int × Int × Int :=
  let d0 := z + 719468
  let era := d0 / 146097
  let r400 := d0 % 146097
  let q100 := min (r400 / 36524) 3
  let q4 := (r400 - 36524 * q100) / 1461
  let q1 := min ((r400 - 36524 * q100 - 1461 * q4) / 365) 3
  let doy := r400 - 36524 * q100 - 1461 * q4 - 365 * q1
  let mp := (5 * doy + 2) / 153
  let d := doy - (153 * mp + 2) / 5 + 1
  let m := mp + (if mp < 10 then 3 else -9)
  (100 * q100 + 4 * q4 + q1 + era * 400 + (if m ≤ 2 then 1 else 0), m, d)

/-- Modelled from the spec: proleptic Gregorian civil date to days since
1970-01-01, inverse of `civilFromDays`. -/
def daysFromCivil (y m d : Int) : Int :=
  let y2 := y - (if m ≤ 2 then 1 else 0)
  let era := y2 / 400
  let yoe := y2 % 400
  let q100 := yoe / 100
  let r100 := yoe % 100
  let doy := (153 * (m + (if m > 2 then -3 else 9)) + 2) / 5 + d - 1
  era * 146097 + 36524 * q100 + 1461 * (r100 / 4) + 365 * (r100 % 4) + doy - 719468

/-- Decimal digits of a natural number, left-padded with zeros to at least
`k` digits. -/
def padNat (k n : Nat) : List Nat :=
  List.replicate (k - (natDigits n).length) 48 ++ natDigits n

/-- ISO year text bytes: a minus sign for negative years, digits padded to
four places. -/
def yearBytes (y : Int) : List Nat :=
  if y < 0 then 45 :: padNat 4 (-y).toNat else padNat 4 y.toNat

/-- Bytes to display text. -/
def charsOfBytes (bs : List Nat) : List Char := bs.map Char.ofNat

/-- Modelled from the spec: `ToDisplay(epochSeconds, mode)`
(`updateExpEditValue` in the source): decimal text in `epoch` mode;
`YYYY-MM-DDTHH:mm` UTC wall-clock text truncated to the minute in `gmt`
mode (`toISOString().slice(0, 16)`). -/
def expToDisplay : ExpMode → Int → List Char
  | .epoch, e => charsOfBytes (intSerBytes e)
  | .gmt, e =>
    let mtotal := e / 60
    let days := mtotal / 1440
    let rem := mtotal % 1440
    let c := civilFromDays days
    charsOfBytes (yearBytes c.1 ++ 45 :: padNat 2 c.2.1.toNat ++ 45 :: padNat 2 c.2.2.toNat ++
      84 :: padNat 2 (rem / 60).toNat ++ 58 :: padNat 2 (rem % 60).toNat)

/-- Parse a byte sequence that consists entirely of decimal digits. -/
def parseNatFull (bs : List Nat) : Option Nat :=
  match parseNatBytes bs with
  | some (n, []) => some n
  | _ => none

/-- Modelled from the spec: `FromDisplay(text, mode)` (`handleExpValueChange`
in the source): `parseInt` in `epoch` mode; in `gmt` mode the text is
parsed as UTC wall-clock at second zero (`new Date(value + ':00Z')`). -/
def expFromDisplay : ExpMode → List Char → Option Int
  | .epoch, t => (parseIntBytes (t.map Char.toNat)).map (fun p => p.1)
  | .gmt, t =>
    match splitOnAny 84 (t.map Char.toNat) with
    | [dateB, timeB] =>
      match splitOnAny 58 timeB with
      | [hB, minB] =>
        match parseNatFull hB, parseNatFull minB with
        | some hh, some mm =>
          match splitOnAny 45 dateB with
          | [yB, mB, dB] =>
            match parseNatFull yB, parseNatFull mB, parseNatFull dB with
            | some y, some mo, some dd =>
              some (daysFromCivil (y : Int) (mo : Int) (dd : Int) * 86400 +
                (hh : Int) * 3600 + (mm : Int) * 60)
            | _, _, _ => none
          | [[], yB, mB, dB] =>
            match parseNatFull yB, parseNatFull mB, parseNatFull dB with
            | some y, some mo, some dd =>
              some (daysFromCivil (-(y : Int)) (mo : Int) (dd : Int) * 86400 +
                (hh : Int) * 3600 + (mm : Int) * 60)
            | _, _, _ => none
          | _ => none
        | _, _ => none
      | _ => none
    | _ => none

/-- The header object an edit event hands to `generateToken` (when event
processing reaches `generateToken` at all). -/
def eventHeaderUse (s : AppState) : Event → Option Json
  | .editHeader v =>
    match jsonParseText v, jsonParseText s.payload with
    | some hObj, some _ => some hObj
    | _, _ => none
  | .editPayload v =>
    match jsonParseText s.header, jsonParseText v with
    | some hObj, some _ => some hObj
    | _, _ => none
  | .editSecret v =>
    if isBlank v then none
    else
      match jsonParseText s.header, jsonParseText s.payload with
      | some hObj, some _ => some hObj
      | _, _ => none
  | .editToken _ => none

/-! ## Concrete sample data used by the witnesses -/

/-- A sample header `{"alg": "HS256"}`. -/
def sampleHeader : Json := .jobj [(algKey, .jstr [72, 83, 50, 53, 54])]

/-- A sample payload `{"exp": 0}` — an expiration far in the past. -/
def samplePayload : Json := .jobj [(expKey, .jnum 0)]

/-- A sample secret (the bytes of "key"). -/
def sampleSecret : List Nat := [107, 101, 121]

/-- A distinct sample secret (the bytes of "key2"). -/
def sampleSecret2 : List Nat := [107, 101, 121, 50]

/-- The token produced by encoding the sample header and payload. -/
def sampleToken : List Char :=
  (encodeJWT sampleHeader samplePayload sampleSecret).getD []

/-- A header `{"alg": "none"}`, outside the closed algorithm set. -/
def unsupportedHeader : Json := .jobj [(algKey, .jstr [110, 111, 110, 101])]

/-- The three segments of the sample token. -/
def sampleSegments : List Char × List Char × List Char :=
  (split3 sampleToken).getD ([], [], [])

/-- The sample token with its signature segment replaced by the garbage text
`xy`: its first two segments still decode, its signature matches no key. -/
def bogusToken : List Char :=
  sampleSegments.1 ++ '.' :: sampleSegments.2.1 ++ '.' :: ['x', 'y']

/-- Numbered sample history entries (distinct token texts). -/
def entC8 (n : Nat) : HistoryEntry :=
  { token := [Char.ofNat (65 + n)], header := sampleHeader, payload := samplePayload }

/-! ## Lemmas: splitting -/

theorem splitOnAny_not_mem {α : Type} [DecidableEq α] {sep : α} {l : List α}
    (h : sep ∉ l) : splitOnAny sep l = [l] := by
  induction l with
  | nil => rfl
  | cons c rest ih =>
    have hc : ¬ (c = sep) := fun hccl => h (hccl ▸ List.mem_cons_self c rest)
    have hr : sep ∉ rest := fun hm => h (List.mem_cons_of_mem c hm)
    simp only [splitOnAny, if_neg hc, ih hr]

theorem splitOnAny_append {α : Type} [DecidableEq α] {sep : α} {xs : List α}
    (ys : List α) (h : sep ∉ xs) :
    splitOnAny sep (xs ++ sep :: ys) = xs :: splitOnAny sep ys := by
  induction xs with
  | nil =>
    simp [splitOnAny]
  | cons c rest ih =>
    have hc : ¬ (c = sep) := fun hccl => h (hccl ▸ List.mem_cons_self c rest)
    have hr : sep ∉ rest := fun hm => h (List.mem_cons_of_mem c hm)
    simp only [List.cons_append, splitOnAny, if_neg hc, List.append_eq]
    rw [ih hr]

/-! ## Lemmas: Base64URL -/

theorem b64Val_b64Char : ∀ n, n < 64 → b64Val (b64Char n) = some n := by decide

theorem b64Char_ne_dot : ∀ n, n < 64 → b64Char n ≠ '.' := by decide

theorem b64Char_toNat_lt : ∀ n, n < 64 → (b64Char n).toNat < 128 := by decide

theorem b64_roundtrip : ∀ bs : List Nat, (∀ b ∈ bs, b < 256) →
    b64Decode (b64Encode bs) = some bs
  | [], _ => rfl
  | [a], h => by
    have ha : a < 256 := h a (by simp)
    have h1 : a / 4 < 64 := by omega
    have h2 : a % 4 * 16 < 64 := by omega
    simp only [b64Encode, b64Decode, b64Val_b64Char _ h1, b64Val_b64Char _ h2]
    have : a / 4 * 4 + a % 4 * 16 / 16 = a := by omega
    rw [this]
  | [a, b], h => by
    have ha : a < 256 := h a (by simp)
    have hb : b < 256 := h b (by simp)
    have h1 : a / 4 < 64 := by omega
    have h2 : a % 4 * 16 + b / 16 < 64 := by omega
    have h3 : b % 16 * 4 < 64 := by omega
    simp only [b64Encode, b64Decode, b64Val_b64Char _ h1, b64Val_b64Char _ h2,
      b64Val_b64Char _ h3]
    have e1 : a / 4 * 4 + (a % 4 * 16 + b / 16) / 16 = a := by omega
    have e2 : (a % 4 * 16 + b / 16) % 16 * 16 + b % 16 * 4 / 4 = b := by omega
    rw [e1, e2]
  | a :: b :: c :: rest, h => by
    have ha : a < 256 := h a (by simp)
    have hb : b < 256 := h b (by simp)
    have hc : c < 256 := h c (by simp)
    have hr : ∀ x ∈ rest, x < 256 := fun x hx => h x (by simp [hx])
    have h1 : a / 4 < 64 := by omega
    have h2 : a % 4 * 16 + b / 16 < 64 := by omega
    have h3 : b % 16 * 4 + c / 64 < 64 := by omega
    have h4 : c % 64 < 64 := by omega
    have ih := b64_roundtrip rest hr
    simp only [b64Encode, b64Decode, b64Val_b64Char _ h1, b64Val_b64Char _ h2,
      b64Val_b64Char _ h3, b64Val_b64Char _ h4, ih]
    have e1 : a / 4 * 4 + (a % 4 * 16 + b / 16) / 16 = a := by omega
    have e2 : (a % 4 * 16 + b / 16) % 16 * 16 + (b % 16 * 4 + c / 64) / 4 = b := by omega
    have e3 : (b % 16 * 4 + c / 64) % 4 * 64 + c % 64 = c := by omega
    rw [e1, e2, e3]

theorem b64Encode_mem : ∀ bs : List Nat, (∀ b ∈ bs, b < 256) →
    ∀ c ∈ b64Encode bs, ∃ n, n < 64 ∧ c = b64Char n
  | [], _ => by simp [b64Encode]
  | [a], h => by
    have ha : a < 256 := h a (by simp)
    intro c hcm
    simp only [b64Encode, List.mem_cons, List.mem_singleton, List.not_mem_nil,
      or_false] at hcm
    rcases hcm with rfl | rfl
    · exact ⟨a / 4, by omega, rfl⟩
    · exact ⟨a % 4 * 16, by omega, rfl⟩
  | [a, b], h => by
    have ha : a < 256 := h a (by simp)
    have hb : b < 256 := h b (by simp)
    intro c hcm
    simp only [b64Encode, List.mem_cons, List.not_mem_nil, or_false] at hcm
    rcases hcm with rfl | rfl | rfl
    · exact ⟨a / 4, by omega, rfl⟩
    · exact ⟨a % 4 * 16 + b / 16, by omega, rfl⟩
    · exact ⟨b % 16 * 4, by omega, rfl⟩
  | a :: b :: c :: rest, h => by
    have ha : a < 256 := h a (by simp)
    have hb : b < 256 := h b (by simp)
    have hc : c < 256 := h c (by simp)
    have hr : ∀ x ∈ rest, x < 256 := fun x hx => h x (by simp [hx])
    intro x hxm
    simp only [b64Encode, List.mem_cons] at hxm
    rcases hxm with rfl | rfl | rfl | rfl | hxm
    · exact ⟨a / 4, by omega, rfl⟩
    · exact ⟨a % 4 * 16 + b / 16, by omega, rfl⟩
    · exact ⟨b % 16 * 4 + c / 64, by omega, rfl⟩
    · exact ⟨c % 64, by omega, rfl⟩
    · exact b64Encode_mem rest hr x hxm

theorem b64Encode_no_dot {bs : List Nat} (h : ∀ b ∈ bs, b < 256) :
    '.' ∉ b64Encode bs := by
  intro hmem
  obtain ⟨n, hn, he⟩ := b64Encode_mem bs h _ hmem
  exact b64Char_ne_dot n hn he.symm

theorem b64Encode_toNat_lt {bs : List Nat} (h : ∀ b ∈ bs, b < 256) :
    ∀ c ∈ b64Encode bs, c.toNat < 128 := by
  intro c hmem
  obtain ⟨n, hn, he⟩ := b64Encode_mem bs h c hmem
  rw [he]
  exact b64Char_toNat_lt n hn

theorem b64Encode_ne_nil : ∀ {bs : List Nat}, bs ≠ [] → b64Encode bs ≠ []
  | [], h => absurd rfl h
  | [_], _ => by simp [b64Encode]
  | [_, _], _ => by simp [b64Encode]
  | _ :: _ :: _ :: _, _ => by simp [b64Encode]

/-! ## Lemmas: decimal digits -/

theorem digitsVal_append_single (ds : List Nat) (d : Nat) :
    digitsVal (ds ++ [d]) = 10 * digitsVal ds + (d - 48) := by
  simp only [digitsVal, List.foldl_append, List.foldl_cons, List.foldl_nil]
  omega

theorem natDigitsAux_spec : ∀ fuel n, n ≤ fuel →
    (∀ b ∈ natDigitsAux fuel n, 48 ≤ b ∧ b ≤ 57) ∧ natDigitsAux fuel n ≠ [] ∧
      digitsVal (natDigitsAux fuel n) = n := by
  intro fuel
  induction fuel with
  | zero =>
    intro n hn
    have : n = 0 := by omega
    subst this
    refine ⟨?_, by simp [natDigitsAux], by simp [natDigitsAux, digitsVal]⟩
    intro b hb
    simp [natDigitsAux] at hb
    omega
  | succ fuel ih =>
    intro n hn
    by_cases hsmall : n < 10
    · refine ⟨?_, by simp [natDigitsAux, hsmall], ?_⟩
      · intro b hb
        simp [natDigitsAux, if_pos hsmall] at hb
        omega
      · simp [natDigitsAux, if_pos hsmall, digitsVal]
    · have hq : n / 10 ≤ fuel := by omega
      obtain ⟨hmem, hne, hval⟩ := ih (n / 10) hq
      refine ⟨?_, ?_, ?_⟩
      · intro b hb
        simp only [natDigitsAux, if_neg hsmall] at hb
        rcases List.mem_append.mp hb with hb | hb
        · exact hmem b hb
        · rw [List.mem_singleton] at hb
          omega
      · simp only [natDigitsAux, if_neg hsmall]
        simp [hne]
      · simp only [natDigitsAux, if_neg hsmall]
        rw [digitsVal_append_single, hval]
        omega

theorem natDigits_spec (n : Nat) :
    (∀ b ∈ natDigits n, 48 ≤ b ∧ b ≤ 57) ∧ natDigits n ≠ [] ∧
      digitsVal (natDigits n) = n :=
  natDigitsAux_spec n n le_rfl

/-- The remaining input may not start with a decimal digit (so that a
greedy number parse cannot run across the boundary). -/
def restOk (rest : List Nat) : Prop :=
  ∀ b, rest.head? = some b → isDigitB b = false

theorem restOk_nil : restOk [] := by
  intro b hb
  simp at hb

theorem restOk_cons {b : Nat} (rest : List Nat) (h : isDigitB b = false) :
    restOk (b :: rest) := by
  intro x hx
  simp only [List.head?] at hx
  cases hx
  exact h

theorem takeWhile_digits_append {ds rest : List Nat}
    (hds : ∀ b ∈ ds, isDigitB b = true) (hrest : restOk rest) :
    (ds ++ rest).takeWhile isDigitB = ds ∧ (ds ++ rest).dropWhile isDigitB = rest := by
  induction ds with
  | nil =>
    simp only [List.nil_append]
    cases rest with
    | nil => simp
    | cons b tl =>
      have : isDigitB b = false := hrest b rfl
      simp [List.takeWhile, List.dropWhile, this]
  | cons d ds ih =>
    have hd : isDigitB d = true := hds d (by simp)
    have hds2 : ∀ b ∈ ds, isDigitB b = true := fun b hb => hds b (by simp [hb])
    obtain ⟨h1, h2⟩ := ih hds2
    simp [List.takeWhile, List.dropWhile, hd, h1, h2]

theorem parseNatBytes_of_digits {ds rest : List Nat}
    (hds : ∀ b ∈ ds, isDigitB b = true) (hne : ds ≠ []) (hrest : restOk rest) :
    parseNatBytes (ds ++ rest) = some (digitsVal ds, rest) := by
  obtain ⟨h1, h2⟩ := takeWhile_digits_append hds hrest
  cases ds with
  | nil => exact absurd rfl hne
  | cons d tl =>
    simp only [parseNatBytes, h1, h2]

theorem parseNatBytes_natDigits {n : Nat} {rest : List Nat} (hrest : restOk rest) :
    parseNatBytes (natDigits n ++ rest) = some (n, rest) := by
  obtain ⟨hmem, hne, hval⟩ := natDigits_spec n
  have hds : ∀ b ∈ natDigits n, isDigitB b = true := by
    intro b hb
    have := hmem b hb
    simp [isDigitB]
    omega
  rw [parseNatBytes_of_digits hds hne hrest, hval]

theorem parseIntBytes_roundtrip {i : Int} {rest : List Nat} (hrest : restOk rest) :
    parseIntBytes (intSerBytes i ++ rest) = some (i, rest) := by
  by_cases hneg : i < 0
  · simp only [intSerBytes, if_pos hneg, List.cons_append, parseIntBytes]
    rw [parseNatBytes_natDigits hrest]
    simp only [Option.map_some']
    have : (((-i).toNat : Int)) = -i := Int.toNat_of_nonneg (by omega)
    rw [this]
    simp
  · simp only [intSerBytes, if_neg hneg]
    obtain ⟨hmem, hne, _⟩ := natDigits_spec i.toNat
    rw [parseIntBytes.eq_def]
    split
    · rename_i heq
      exfalso
      cases hh : natDigits i.toNat with
      | nil => exact hne hh
      | cons d tl =>
        rw [hh] at heq
        simp only [List.cons_append, List.cons.injEq] at heq
        have := hmem d (by rw [hh]; simp)
        omega
    · rw [parseNatBytes_natDigits hrest]
      simp only [Option.map_some']
      rw [Int.toNat_of_nonneg (by omega)]

/-! ## Lemmas: JSON strings -/

theorem parseStringBody_roundtrip : ∀ (s : List Nat) (rest : List Nat),
    parseStringBody (escBytes s ++ 34 :: rest) = some (s, rest)
  | [], rest => by simp [escBytes, parseStringBody]
  | b :: tl, rest => by
    by_cases hesc : b = 34 ∨ b = 92
    · have ih := parseStringBody_roundtrip tl rest
      simp only [escBytes, if_pos hesc, List.cons_append]
      simp only [parseStringBody, if_pos hesc]
      rw [ih]
      rfl
    · push_neg at hesc
      have ih := parseStringBody_roundtrip tl rest
      simp only [escBytes, if_neg (by tauto : ¬ (b = 34 ∨ b = 92)), List.cons_append]
      rw [parseStringBody.eq_def]
      split
      · rename_i heq
        exact absurd heq (List.cons_ne_nil _ _)
      · rename_i heq
        exfalso
        simp only [List.cons.injEq] at heq
        exact hesc.1 heq.1
      · rename_i heq
        exfalso
        simp only [List.cons.injEq] at heq
        exact hesc.2 heq.1
      · rename_i heq
        simp only [List.cons.injEq] at heq
        obtain ⟨hb1, hb2⟩ := heq
        rw [← hb1, ← hb2, ih]
        rfl

/-! ## Lemmas: serializer shape and parser roundtrip -/

theorem serialize_shape : ∀ j : Json, ∃ hd tl, serialize j = hd :: tl ∧
    (hd = 110 ∨ hd = 116 ∨ hd = 102 ∨ hd = 34 ∨ hd = 91 ∨ hd = 123 ∨ hd = 45 ∨
      (48 ≤ hd ∧ hd ≤ 57)) := by
  intro j
  cases j with
  | jnull => exact ⟨110, _, rfl, by omega⟩
  | jbool b =>
    cases b with
    | true => exact ⟨116, _, rfl, by omega⟩
    | false => exact ⟨102, _, rfl, by omega⟩
  | jnum i =>
    by_cases hneg : i < 0
    · exact ⟨45, natDigits (-i).toNat, by simp [serialize, intSerBytes, if_pos hneg], by omega⟩
    · obtain ⟨hmem, hne, _⟩ := natDigits_spec i.toNat
      cases hh : natDigits i.toNat with
      | nil => exact absurd hh hne
      | cons d tl =>
        refine ⟨d, tl, ?_, ?_⟩
        · simp [serialize, intSerBytes, if_neg hneg, hh]
        · have := hmem d (by rw [hh]; simp)
          omega
  | jstr s => exact ⟨34, _, rfl, by omega⟩
  | jarr es =>
    cases es with
    | nil => exact ⟨91, _, rfl, by omega⟩
    | cons e tl => exact ⟨91, _, rfl, by omega⟩
  | jobj ms =>
    cases ms with
    | nil => exact ⟨123, _, rfl, by omega⟩
    | cons kv tl =>
      obtain ⟨k, v⟩ := kv
      exact ⟨123, _, rfl, by omega⟩

theorem serialize_ne_nil (j : Json) : serialize j ≠ [] := by
  obtain ⟨hd, tl, he, _⟩ := serialize_shape j
  rw [he]
  exact List.cons_ne_nil _ _

theorem serialize_append_headD (j : Json) (x : List Nat) :
    (serialize j ++ x).headD 0 ≠ 93 ∧ (serialize j ++ x).headD 0 ≠ 125 := by
  obtain ⟨hd, tl, he, hset⟩ := serialize_shape j
  rw [he]
  simp only [List.cons_append, List.headD_cons]
  omega

theorem restOk_serTail (es : List Json) (rest : List Nat) :
    restOk (serTail es ++ 93 :: rest) := by
  cases es with
  | nil => exact restOk_cons _ (by decide)
  | cons e tl => exact restOk_cons _ (by decide)

theorem restOk_serMTail (ms : List (List Nat × Json)) (rest : List Nat) :
    restOk (serMTail ms ++ 125 :: rest) := by
  cases ms with
  | nil => exact restOk_cons _ (by decide)
  | cons kv tl =>
    obtain ⟨k, v⟩ := kv
    exact restOk_cons _ (by decide)

theorem parseTail_roundtrip (f1 : Nat)
    (hA : ∀ (j : Json) (rest : List Nat), (serialize j).length < f1 → restOk rest →
      parseJ f1 (serialize j ++ rest) = some (j, rest)) :
    ∀ (es : List Json) (f2 : Nat) (rest : List Nat),
      (serTail es).length < f1 → (serTail es).length < f2 →
      parseTail (parseJ f1) f2 (serTail es ++ 93 :: rest) = some (es, rest) := by
  intro es
  induction es with
  | nil =>
    intro f2 rest _ h2
    cases f2 with
    | zero => omega
    | succ f2 => simp [serTail, parseTail]
  | cons e tl ih =>
    intro f2 rest h1 h2
    have hlen : (serTail (e :: tl)).length =
        1 + (serialize e).length + (serTail tl).length := by
      simp [serTail]
      omega
    cases f2 with
    | zero => omega
    | succ f2 =>
      have hse : (serialize e).length < f1 := by omega
      have hstl1 : (serTail tl).length < f1 := by omega
      have hstl2 : (serTail tl).length < f2 := by omega
      have he := hA e (serTail tl ++ 93 :: rest) hse (restOk_serTail tl rest)
      show parseTail (parseJ f1) (f2 + 1)
        ((44 :: serialize e ++ serTail tl) ++ 93 :: rest) = some (e :: tl, rest)
      simp only [List.cons_append, List.append_assoc]
      simp only [parseTail]
      simp only [he, ih f2 rest hstl1 hstl2]

theorem parseMTail_roundtrip (f1 : Nat)
    (hA : ∀ (j : Json) (rest : List Nat), (serialize j).length < f1 → restOk rest →
      parseJ f1 (serialize j ++ rest) = some (j, rest)) :
    ∀ (ms : List (List Nat × Json)) (f2 : Nat) (rest : List Nat),
      (serMTail ms).length < f1 → (serMTail ms).length < f2 →
      parseMTail (parseJ f1) f2 (serMTail ms ++ 125 :: rest) = some (ms, rest) := by
  intro ms
  induction ms with
  | nil =>
    intro f2 rest _ h2
    cases f2 with
    | zero => omega
    | succ f2 => simp [serMTail, parseMTail]
  | cons kv tl ih =>
    obtain ⟨k, v⟩ := kv
    intro f2 rest h1 h2
    have hlen : (serMTail ((k, v) :: tl)).length =
        4 + (escBytes k).length + (serialize v).length + (serMTail tl).length := by
      simp [serMTail]
      omega
    cases f2 with
    | zero => omega
    | succ f2 =>
      have hse : (serialize v).length < f1 := by omega
      have hstl1 : (serMTail tl).length < f1 := by omega
      have hstl2 : (serMTail tl).length < f2 := by omega
      have hv := hA v (serMTail tl ++ 125 :: rest) hse (restOk_serMTail tl rest)
      show parseMTail (parseJ f1) (f2 + 1)
        ((44 :: (34 :: escBytes k ++ [34, 58]) ++ serialize v ++ serMTail tl) ++
          125 :: rest) = some ((k, v) :: tl, rest)
      simp only [List.cons_append, List.append_assoc, List.nil_append]
      simp only [parseMTail]
      rw [parseStringBody_roundtrip]
      simp only [List.cons_append, List.nil_append]
      simp only [hv, ih f2 rest hstl1 hstl2]

theorem parseJ_roundtrip : ∀ (fuel : Nat) (j : Json) (rest : List Nat),
    (serialize j).length < fuel → restOk rest →
    parseJ fuel (serialize j ++ rest) = some (j, rest) := by
  intro fuel
  induction fuel with
  | zero =>
    intro j rest h _
    omega
  | succ n ih =>
    intro j rest h hrest
    cases j with
    | jnull => simp [serialize, parseJ]
    | jbool b => cases b <;> simp [serialize, parseJ]
    | jnum i =>
      by_cases hneg : i < 0
      · have hp := @parseIntBytes_roundtrip i rest hrest
        simp only [intSerBytes, if_pos hneg, List.cons_append] at hp
        simp only [serialize, intSerBytes, if_pos hneg, List.cons_append]
        simp only [parseJ]
        rw [if_neg (by omega), if_neg (by omega), if_neg (by omega), if_neg (by omega),
          if_neg (by omega), if_neg (by omega), hp]
      · have hp := @parseIntBytes_roundtrip i rest hrest
        simp only [intSerBytes, if_neg hneg] at hp
        obtain ⟨hmem, hne, _⟩ := natDigits_spec i.toNat
        cases hh : natDigits i.toNat with
        | nil => exact absurd hh hne
        | cons d ds =>
          rw [hh] at hp
          have hd : 48 ≤ d ∧ d ≤ 57 := hmem d (by rw [hh]; simp)
          simp only [serialize, intSerBytes, if_neg hneg, hh, List.cons_append]
          simp only [List.cons_append] at hp
          simp only [parseJ]
          rw [if_neg (by omega), if_neg (by omega), if_neg (by omega), if_neg (by omega),
            if_neg (by omega), if_neg (by omega), hp]
    | jstr s =>
      simp only [serialize, List.cons_append, List.append_assoc, List.nil_append,
        List.singleton_append]
      simp only [parseJ]
      rw [if_neg (by omega), if_neg (by omega), if_neg (by omega)]
      simp only [if_true]
      simp only [parseStringBody_roundtrip]
    | jarr es =>
      cases es with
      | nil => simp [serialize, parseJ]
      | cons e tl =>
        have hlen : (serialize (Json.jarr (e :: tl))).length =
            2 + (serialize e).length + (serTail tl).length := by
          simp [serialize]
          omega
        simp only [serialize, List.cons_append, List.append_assoc, List.singleton_append,
          List.nil_append]
        simp only [parseJ]
        rw [if_neg (by omega), if_neg (by omega), if_neg (by omega), if_neg (by omega)]
        simp only [if_true]
        rw [if_neg (serialize_append_headD e _).1]
        have he := ih e (serTail tl ++ 93 :: rest) (by omega) (restOk_serTail tl rest)
        have ht := parseTail_roundtrip n ih tl n rest (by omega) (by omega)
        simp only [he, ht]
    | jobj ms =>
      cases ms with
      | nil => simp [serialize, parseJ]
      | cons kv tl =>
        obtain ⟨k, v⟩ := kv
        have hlen : (serialize (Json.jobj ((k, v) :: tl))).length =
            5 + (escBytes k).length + (serialize v).length + (serMTail tl).length := by
          simp [serialize]
          omega
        simp only [serialize, List.cons_append, List.append_assoc, List.singleton_append,
          List.nil_append]
        simp only [parseJ]
        rw [if_neg (by omega), if_neg (by omega), if_neg (by omega), if_neg (by omega),
          if_neg (by omega)]
        simp only [if_true]
        rw [if_neg (by simp)]
        simp only [parseStringBody_roundtrip]
        have hv := ih v (serMTail tl ++ 125 :: rest) (by omega) (restOk_serMTail tl rest)
        have hm := parseMTail_roundtrip n ih tl n rest (by omega) (by omega)
        simp only [hv, hm]

theorem parseTop_serialize (j : Json) : parseTop (serialize j) = some j := by
  have h := parseJ_roundtrip ((serialize j).length + 1) j [] (by omega) restOk_nil
  rw [List.append_nil] at h
  simp [parseTop, h]

/-! ## Lemmas: the modelled MAC -/

theorem replicate_one_sep : ∀ {n1 n2 : Nat} {xs ys : List Nat},
    List.replicate n1 1 ++ 0 :: xs = List.replicate n2 1 ++ 0 :: ys →
    n1 = n2 ∧ xs = ys := by
  intro n1
  induction n1 with
  | zero =>
    intro n2 xs ys h
    cases n2 with
    | zero => simpa using h
    | succ m => simp [List.replicate_succ] at h
  | succ m ih =>
    intro n2 xs ys h
    cases n2 with
    | zero => simp [List.replicate_succ] at h
    | succ l =>
      simp only [List.replicate_succ, List.cons_append, List.cons.injEq] at h
      obtain ⟨e1, e2⟩ := ih h.2
      exact ⟨by omega, e2⟩

theorem hmac_inj_key {alg : Alg} {k1 k2 msg : List Nat}
    (h : hmac alg k1 msg = hmac alg k2 msg) : k1 = k2 := by
  unfold hmac at h
  obtain ⟨hlen, htail⟩ := replicate_one_sep h
  rw [List.append_assoc, List.append_assoc] at htail
  exact (List.append_inj htail hlen).1

theorem hmac_lt {alg : Alg} {k msg : List Nat}
    (hk : ∀ b ∈ k, b < 256) (hm : ∀ b ∈ msg, b < 256) :
    ∀ b ∈ hmac alg k msg, b < 256 := by
  intro b hb
  unfold hmac at hb
  rcases List.mem_append.mp hb with hb | hb
  · have := List.eq_of_mem_replicate hb
    omega
  · rcases List.mem_cons.mp hb with rfl | hb
    · omega
    · rcases List.mem_append.mp hb with hb | hb
      · rcases List.mem_append.mp hb with hb | hb
        · exact hk b hb
        · exact hm b hb
      · rw [List.mem_singleton] at hb
        cases alg <;> simp [algTag] at hb <;> omega

theorem hmac_ne_nil (alg : Alg) (k msg : List Nat) : hmac alg k msg ≠ [] := by
  unfold hmac
  simp

/-! ## Lemmas: codec structure -/

theorem signingInput_lt {s1 s2 : List Char}
    (h1 : ∀ c ∈ s1, c.toNat < 128) (h2 : ∀ c ∈ s2, c.toNat < 128) :
    ∀ b ∈ signingInput s1 s2, b < 256 := by
  intro b hb
  unfold signingInput at hb
  rw [List.mem_map] at hb
  obtain ⟨c, hc, rfl⟩ := hb
  rcases List.mem_append.mp hc with hc | hc
  · have := h1 c hc
    omega
  · rcases List.mem_cons.mp hc with rfl | hc
    · decide
    · have := h2 c hc
      omega

theorem encodeJWT_eq {h p : Json} {sec : List Nat} {t : List Char}
    (henc : encodeJWT h p sec = some t) :
    ∃ alg, supportedAlgOf h = some alg ∧
      t = b64Encode (serialize h) ++ '.' :: b64Encode (serialize p) ++ '.' ::
        b64Encode (hmac alg sec
          (signingInput (b64Encode (serialize h)) (b64Encode (serialize p)))) := by
  unfold encodeJWT at henc
  cases hs : supportedAlgOf h with
  | none =>
    rw [hs] at henc
    exact absurd henc (by simp)
  | some alg =>
    rw [hs] at henc
    simp only [Option.some.injEq] at henc
    exact ⟨alg, rfl, henc.symm⟩

theorem split3_of_segments {s1 s2 s3 : List Char}
    (h1 : '.' ∉ s1) (h2 : '.' ∉ s2) (h3 : '.' ∉ s3)
    (n1 : s1 ≠ []) (n2 : s2 ≠ []) (n3 : s3 ≠ []) :
    split3 (s1 ++ '.' :: s2 ++ '.' :: s3) = some (s1, s2, s3) := by
  have e1 : splitOnAny '.' (s1 ++ '.' :: (s2 ++ '.' :: s3)) =
      s1 :: splitOnAny '.' (s2 ++ '.' :: s3) := splitOnAny_append _ h1
  have e2 : splitOnAny '.' (s2 ++ '.' :: s3) = s2 :: splitOnAny '.' s3 :=
    splitOnAny_append _ h2
  have e3 : splitOnAny '.' s3 = [s3] := splitOnAny_not_mem h3
  unfold split3
  simp only [List.cons_append, List.append_assoc]
  rw [e1, e2, e3]
  simp [n1, n2, n3]

theorem encodeJWT_split3 {h p : Json} {sec : List Nat} {t : List Char} {alg : Alg}
    (hwh : wfJson h) (hwp : wfJson p) (hsec : ∀ b ∈ sec, b < 256)
    (hs : supportedAlgOf h = some alg)
    (ht : t = b64Encode (serialize h) ++ '.' :: b64Encode (serialize p) ++ '.' ::
      b64Encode (hmac alg sec
        (signingInput (b64Encode (serialize h)) (b64Encode (serialize p))))) :
    split3 t = some (b64Encode (serialize h), b64Encode (serialize p),
      b64Encode (hmac alg sec
        (signingInput (b64Encode (serialize h)) (b64Encode (serialize p))))) := by
  have hsig : ∀ b ∈ hmac alg sec
      (signingInput (b64Encode (serialize h)) (b64Encode (serialize p))), b < 256 :=
    hmac_lt hsec (signingInput_lt (b64Encode_toNat_lt hwh) (b64Encode_toNat_lt hwp))
  rw [ht]
  exact split3_of_segments (b64Encode_no_dot hwh) (b64Encode_no_dot hwp)
    (b64Encode_no_dot hsig)
    (b64Encode_ne_nil (serialize_ne_nil h)) (b64Encode_ne_nil (serialize_ne_nil p))
    (b64Encode_ne_nil (hmac_ne_nil alg sec _))

theorem decodeJWT_encodeJWT {h p : Json} {sec : List Nat} {t : List Char}
    (hwh : wfJson h) (hwp : wfJson p) (hsec : ∀ b ∈ sec, b < 256)
    (hobjh : isObjB h = true) (hobjp : isObjB p = true)
    (henc : encodeJWT h p sec = some t) : decodeJWT t = .ok (h, p) := by
  obtain ⟨alg, hs, ht⟩ := encodeJWT_eq henc
  have hsplit := encodeJWT_split3 hwh hwp hsec hs ht
  unfold decodeJWT
  simp only [hsplit, b64_roundtrip _ hwh, b64_roundtrip _ hwp, parseTop_serialize]
  simp [hobjh, hobjp]

theorem verifyJWT_encodeJWT_true {h p : Json} {sec : List Nat} {t : List Char}
    (hwh : wfJson h) (hwp : wfJson p) (hsec : ∀ b ∈ sec, b < 256)
    (henc : encodeJWT h p sec = some t) : verifyJWT t sec = .ok true := by
  obtain ⟨alg, hs, ht⟩ := encodeJWT_eq henc
  have hsig : ∀ b ∈ hmac alg sec
      (signingInput (b64Encode (serialize h)) (b64Encode (serialize p))), b < 256 :=
    hmac_lt hsec (signingInput_lt (b64Encode_toNat_lt hwh) (b64Encode_toNat_lt hwp))
  have hsplit := encodeJWT_split3 hwh hwp hsec hs ht
  unfold verifyJWT
  simp only [hsplit, b64_roundtrip _ hwh, parseTop_serialize, hs, b64_roundtrip _ hsig]
  simp

theorem verifyJWT_encodeJWT_false {h p : Json} {sec sec2 : List Nat} {t : List Char}
    (hwh : wfJson h) (hwp : wfJson p) (hsec : ∀ b ∈ sec, b < 256)
    (hne : sec ≠ sec2)
    (henc : encodeJWT h p sec = some t) : verifyJWT t sec2 = .ok false := by
  obtain ⟨alg, hs, ht⟩ := encodeJWT_eq henc
  have hsig : ∀ b ∈ hmac alg sec
      (signingInput (b64Encode (serialize h)) (b64Encode (serialize p))), b < 256 :=
    hmac_lt hsec (signingInput_lt (b64Encode_toNat_lt hwh) (b64Encode_toNat_lt hwp))
  have hsplit := encodeJWT_split3 hwh hwp hsec hs ht
  unfold verifyJWT
  simp only [hsplit, b64_roundtrip _ hwh, parseTop_serialize, hs, b64_roundtrip _ hsig]
  simp only [Except.ok.injEq, decide_eq_false_iff_not, Option.some.injEq]
  intro hcontra
  exact hne (hmac_inj_key hcontra)

/-! ## Claims C1, C2, C3 -/

/-- C1: for every header object whose `alg` is one of HS256/HS384/HS512
(equivalently, whose encoding succeeds), every JSON-serializable payload
object, and every secret, decoding the token produced by `Encode` yields
back exactly the pair of the header and the payload. -/
theorem encode_decode_roundtrip_c1 (h p : Json) (secret : List Nat) (t : List Char)
    (hwh : wfJson h) (hwp : wfJson p) (hsec : ∀ b ∈ secret, b < 256)
    (hobjh : isObjB h = true) (hobjp : isObjB p = true)
    (henc : encodeJWT h p secret = some t) :
    decodeJWT t = .ok (h, p) :=
  decodeJWT_encodeJWT hwh hwp hsec hobjh hobjp henc

theorem encode_decode_roundtrip_c1_witness :
    wfJson sampleHeader ∧ encodeJWT sampleHeader samplePayload sampleSecret = some sampleToken ∧
      decodeJWT sampleToken = .ok (sampleHeader, samplePayload) :=
  ⟨by decide, rfl,
    encode_decode_roundtrip_c1 sampleHeader samplePayload sampleSecret sampleToken
      (by decide) (by decide) (by decide) (by decide) (by decide) rfl⟩

/-- C2: for every header with a supported algorithm (so that encoding
succeeds), every payload, and secrets `sec ≠ sec2`, verifying the encoded
token with the signing secret yields `true` and with the other secret
yields `false` (false by injectivity of the ideal MAC in its key). -/
theorem verify_signature_c2 (h p : Json) (sec sec2 : List Nat) (t : List Char)
    (hwh : wfJson h) (hwp : wfJson p) (hsec : ∀ b ∈ sec, b < 256)
    (hne : sec ≠ sec2)
    (henc : encodeJWT h p sec = some t) :
    verifyJWT t sec = .ok true ∧ verifyJWT t sec2 = .ok false :=
  ⟨verifyJWT_encodeJWT_true hwh hwp hsec henc,
   verifyJWT_encodeJWT_false hwh hwp hsec hne henc⟩

theorem verify_signature_c2_witness :
    sampleSecret ≠ sampleSecret2 ∧
      verifyJWT sampleToken sampleSecret = .ok true ∧
      verifyJWT sampleToken sampleSecret2 = .ok false :=
  ⟨by decide,
    verify_signature_c2 sampleHeader samplePayload sampleSecret sampleSecret2 sampleToken
      (by decide) (by decide) (by decide) (by decide) rfl⟩

/-- C3: for every token whose HMAC signature is valid under a secret —
stated structurally: its third segment decodes to the MAC of its literal
first two segments under the header's algorithm — `Verify` returns `true`.
The hypotheses say nothing about `exp`, `nbf` or `iat`, which `Verify`
never evaluates; the witness instantiates this with a token whose `exp`
lies in the far past (epoch second 0). -/
theorem verify_ignores_exp_c3 (t : List Char) (secret : List Nat)
    (a b c : List Char) (h : Json) (alg : Alg)
    (hsplit : split3 t = some (a, b, c))
    (hhdr : (b64Decode a).bind parseTop = some h)
    (halg : supportedAlgOf h = some alg)
    (hsig : b64Decode c = some (hmac alg secret (signingInput a b))) :
    verifyJWT t secret = .ok true := by
  unfold verifyJWT
  rw [hsplit]
  rcases hba : b64Decode a with _ | hb
  · rw [hba] at hhdr
    simp at hhdr
  · rw [hba] at hhdr
    simp only [Option.some_bind] at hhdr
    simp only [hba, hhdr, halg, hsig]
    simp

theorem verify_ignores_exp_c3_witness :
    getMember samplePayload expKey = some (.jnum 0) ∧
      verifyJWT sampleToken sampleSecret = .ok true :=
  ⟨rfl,
    verify_ignores_exp_c3 sampleToken sampleSecret
      (b64Encode (serialize sampleHeader)) (b64Encode (serialize samplePayload))
      (b64Encode (hmac .HS256 sampleSecret
        (signingInput (b64Encode (serialize sampleHeader))
          (b64Encode (serialize samplePayload)))))
      sampleHeader .HS256 rfl rfl rfl rfl⟩

/-! ## Claim C5 -/

theorem split3_isSome_iff (t : List Char) :
    (split3 t).isSome ↔
      ((splitOnAny '.' t).length = 3 ∧ ∀ s ∈ splitOnAny '.' t, s ≠ []) := by
  unfold split3
  cases hL : splitOnAny '.' t with
  | nil => simp
  | cons a L1 =>
    cases L1 with
    | nil => simp
    | cons b L2 =>
      cases L2 with
      | nil => simp
      | cons c L3 =>
        cases L3 with
        | nil =>
          by_cases hcond : a ≠ [] ∧ b ≠ [] ∧ c ≠ []
          · simp [hcond]
          · simp [hcond]
        | cons d L4 => simp

theorem decodeJWT_invalidFormat_iff (t : List Char) :
    decodeJWT t = .error .invalidFormat ↔ split3 t = none := by
  cases hs : split3 t with
  | none => simp [decodeJWT, hs]
  | some abc =>
    obtain ⟨a, b, c⟩ := abc
    simp only [hs, reduceCtorEq, iff_false]
    intro hdec
    unfold decodeJWT at hdec
    rw [hs] at hdec
    cases hda : b64Decode a with
    | none =>
      cases hdb : b64Decode b with
      | none => simp [hda, hdb] at hdec
      | some pb => simp [hda, hdb] at hdec
    | some hb =>
      cases hdb : b64Decode b with
      | none => simp [hda, hdb] at hdec
      | some pb =>
        simp only [hda, hdb] at hdec
        cases hpa : parseTop hb with
        | none => simp [hpa] at hdec
        | some hj =>
          cases hpb : parseTop pb with
          | none => simp [hpa, hpb] at hdec
          | some pj =>
            simp only [hpa, hpb] at hdec
            by_cases hc : isObjB hj = true ∧ isObjB pj = true
            · simp [hc] at hdec
            · simp [hc] at hdec

theorem verifyJWT_invalidFormat_iff (t : List Char) (sec : List Nat) :
    verifyJWT t sec = .error .invalidFormat ↔ split3 t = none := by
  cases hs : split3 t with
  | none => simp [verifyJWT, hs]
  | some abc =>
    obtain ⟨a, b, c⟩ := abc
    simp only [hs, reduceCtorEq, iff_false]
    intro hdec
    unfold verifyJWT at hdec
    rw [hs] at hdec
    cases hda : b64Decode a with
    | none => simp [hda] at hdec
    | some hb =>
      simp only [hda] at hdec
      cases hpa : parseTop hb with
      | none => simp [hpa] at hdec
      | some hj =>
        simp only [hpa] at hdec
        cases hal : supportedAlgOf hj with
        | none => simp [hal] at hdec
        | some alg => simp [hal] at hdec

/-- C5: `Decode` and `Verify` report the format error for the empty string,
`abc`, `a.b`, `a.b.c.d` and `a..c`, and in general the format error occurs
exactly when the input does not split into 3 non-empty dot-separated
segments. -/
theorem format_validation_c5 :
    (decodeJWT [] = .error .invalidFormat) ∧
    (decodeJWT ['a', 'b', 'c'] = .error .invalidFormat) ∧
    (decodeJWT ['a', '.', 'b'] = .error .invalidFormat) ∧
    (decodeJWT ['a', '.', 'b', '.', 'c', '.', 'd'] = .error .invalidFormat) ∧
    (decodeJWT ['a', '.', '.', 'c'] = .error .invalidFormat) ∧
    (∀ sec : List Nat,
      verifyJWT [] sec = .error .invalidFormat ∧
      verifyJWT ['a', 'b', 'c'] sec = .error .invalidFormat ∧
      verifyJWT ['a', '.', 'b'] sec = .error .invalidFormat ∧
      verifyJWT ['a', '.', 'b', '.', 'c', '.', 'd'] sec = .error .invalidFormat ∧
      verifyJWT ['a', '.', '.', 'c'] sec = .error .invalidFormat) ∧
    (∀ t : List Char, decodeJWT t = .error .invalidFormat ↔
      ¬ ((splitOnAny '.' t).length = 3 ∧ ∀ s ∈ splitOnAny '.' t, s ≠ [])) ∧
    (∀ (t : List Char) (sec : List Nat), verifyJWT t sec = .error .invalidFormat ↔
      ¬ ((splitOnAny '.' t).length = 3 ∧ ∀ s ∈ splitOnAny '.' t, s ≠ [])) := by
  refine ⟨rfl, rfl, rfl, rfl, rfl, fun sec => ⟨rfl, rfl, rfl, rfl, rfl⟩, ?_, ?_⟩
  · intro t
    rw [decodeJWT_invalidFormat_iff, ← Option.not_isSome_iff_eq_none]
    exact not_congr (split3_isSome_iff t)
  · intro t sec
    rw [verifyJWT_invalidFormat_iff, ← Option.not_isSome_iff_eq_none]
    exact not_congr (split3_isSome_iff t)

/-! ## Lemmas: the editing session -/

theorem applyVerifyEffect_fields (old mid : AppState) :
    (applyVerifyEffect old mid).token = mid.token ∧
    (applyVerifyEffect old mid).secret = mid.secret ∧
    (applyVerifyEffect old mid).tokenHistory = mid.tokenHistory ∧
    (applyVerifyEffect old mid).algorithmSupported = mid.algorithmSupported := by
  unfold applyVerifyEffect
  split <;> simp

theorem applyVerifyEffect_none {old mid : AppState}
    (h : (applyVerifyEffect old mid).isVerified = none) :
    mid.isVerified = none ∧
      ¬ ((mid.token ≠ old.token ∨ mid.secret ≠ old.secret) ∧
         mid.token ≠ [] ∧ mid.secret ≠ []) := by
  unfold applyVerifyEffect at h
  by_cases hcond : (mid.token ≠ old.token ∨ mid.secret ≠ old.secret) ∧
      mid.token ≠ [] ∧ mid.secret ≠ []
  · rw [if_pos hcond] at h
    simp at h
  · rw [if_neg hcond] at h
    exact ⟨h, hcond⟩

theorem generateToken_isVerified (s : AppState) (h p : Json) (sk : List Char) :
    (generateToken s h p sk).isVerified = s.isVerified := by
  unfold generateToken
  cases he : encodeJWT h p (secretBytes sk) <;> simp [he]

theorem generateToken_secret (s : AppState) (h p : Json) (sk : List Char) :
    (generateToken s h p sk).secret = s.secret := by
  unfold generateToken
  cases he : encodeJWT h p (secretBytes sk) <;> simp [he]

theorem handleHeaderChange_isVerified (s : AppState) (v : List Char) :
    (handleHeaderChange s v).isVerified = s.isVerified := by
  unfold handleHeaderChange
  cases h1 : jsonParseText v <;> cases h2 : jsonParseText s.payload <;>
    simp [h1, h2, generateToken_isVerified]

theorem handlePayloadChange_isVerified (s : AppState) (v : List Char) :
    (handlePayloadChange s v).isVerified = s.isVerified := by
  unfold handlePayloadChange
  cases h1 : jsonParseText s.header <;> cases h2 : jsonParseText v <;>
    simp [h1, h2, generateToken_isVerified]

theorem handleSecretChange_isVerified (s : AppState) (v : List Char) :
    (handleSecretChange s v).isVerified = s.isVerified := by
  unfold handleSecretChange
  by_cases hb : isBlank v
  · simp [hb]
  · cases h1 : jsonParseText s.header <;> cases h2 : jsonParseText s.payload <;>
      simp [hb, h1, h2, generateToken_isVerified]

theorem handleTokenChange_token (s : AppState) (v : List Char) :
    (handleTokenChange s v).token = v := by
  unfold handleTokenChange
  cases hd : decodeJWT v with
  | ok pr => obtain ⟨h, p⟩ := pr; simp [hd]
  | error e => simp [hd]

theorem handleTokenChange_isVerified (s : AppState) (v : List Char) :
    (handleTokenChange s v).isVerified = s.isVerified ∨
      ((handleTokenChange s v).isVerified = none ∧ (decodeJWT v).isOk = false) := by
  unfold handleTokenChange
  cases hd : decodeJWT v with
  | ok pr =>
    obtain ⟨h, p⟩ := pr
    left
    simp [hd]
  | error e =>
    right
    simp [hd, Except.isOk, Except.toBool]

/-! ## Claim C4 -/

theorem reachable_indeterminate_inv :
    ∀ s : AppState, Reachable s → s.isVerified = none →
      s.token = [] ∨ s.secret = [] ∨ (decodeJWT s.token).isOk = false := by
  intro s hr
  induction hr with
  | init now => exact fun _ => Or.inl rfl
  | @next s0 hr e ih =>
    intro hnone
    cases e with
    | editHeader v =>
      simp only [step] at hnone ⊢
      have heff := applyVerifyEffect_none hnone
      have hfields := applyVerifyEffect_fields s0 (handleHeaderChange s0 v)
      rw [hfields.1, hfields.2.1]
      by_cases ht0 : (handleHeaderChange s0 v).token = []
      · exact Or.inl ht0
      by_cases hsec : (handleHeaderChange s0 v).secret = []
      · exact Or.inr (Or.inl hsec)
      have hnc : (handleHeaderChange s0 v).token = s0.token ∧
          (handleHeaderChange s0 v).secret = s0.secret := by
        by_contra hcon
        exact heff.2 ⟨by tauto, ht0, hsec⟩
      have hs0none : s0.isVerified = none := by
        rw [← handleHeaderChange_isVerified s0 v]
        exact heff.1
      rw [hnc.1, hnc.2]
      exact ih hs0none
    | editPayload v =>
      simp only [step] at hnone ⊢
      have heff := applyVerifyEffect_none hnone
      have hfields := applyVerifyEffect_fields s0 (handlePayloadChange s0 v)
      rw [hfields.1, hfields.2.1]
      by_cases ht0 : (handlePayloadChange s0 v).token = []
      · exact Or.inl ht0
      by_cases hsec : (handlePayloadChange s0 v).secret = []
      · exact Or.inr (Or.inl hsec)
      have hnc : (handlePayloadChange s0 v).token = s0.token ∧
          (handlePayloadChange s0 v).secret = s0.secret := by
        by_contra hcon
        exact heff.2 ⟨by tauto, ht0, hsec⟩
      have hs0none : s0.isVerified = none := by
        rw [← handlePayloadChange_isVerified s0 v]
        exact heff.1
      rw [hnc.1, hnc.2]
      exact ih hs0none
    | editSecret v =>
      simp only [step] at hnone ⊢
      have heff := applyVerifyEffect_none hnone
      have hfields := applyVerifyEffect_fields s0 (handleSecretChange s0 v)
      rw [hfields.1, hfields.2.1]
      by_cases ht0 : (handleSecretChange s0 v).token = []
      · exact Or.inl ht0
      by_cases hsec : (handleSecretChange s0 v).secret = []
      · exact Or.inr (Or.inl hsec)
      have hnc : (handleSecretChange s0 v).token = s0.token ∧
          (handleSecretChange s0 v).secret = s0.secret := by
        by_contra hcon
        exact heff.2 ⟨by tauto, ht0, hsec⟩
      have hs0none : s0.isVerified = none := by
        rw [← handleSecretChange_isVerified s0 v]
        exact heff.1
      rw [hnc.1, hnc.2]
      exact ih hs0none
    | editToken v =>
      simp only [step] at hnone ⊢
      have heff := applyVerifyEffect_none hnone
      have hfields := applyVerifyEffect_fields s0 (handleTokenChange s0 v)
      rw [hfields.1, hfields.2.1]
      rcases handleTokenChange_isVerified s0 v with hm | ⟨_, hdk⟩
      · by_cases ht0 : (handleTokenChange s0 v).token = []
        · exact Or.inl ht0
        by_cases hsec : (handleTokenChange s0 v).secret = []
        · exact Or.inr (Or.inl hsec)
        have hnc : (handleTokenChange s0 v).token = s0.token ∧
            (handleTokenChange s0 v).secret = s0.secret := by
          by_contra hcon
          exact heff.2 ⟨by tauto, ht0, hsec⟩
        have hs0none : s0.isVerified = none := by
          rw [← hm]
          exact heff.1
        rw [hnc.1, hnc.2]
        exact ih hs0none
      · refine Or.inr (Or.inr ?_)
        rw [handleTokenChange_token]
        exact hdk

/-- C4 (amended): after an `EditToken` event whose text does not decode, the
handler sets the verification state to Indeterminate, but the verification
effect then overwrites it whenever the token changed and both the new token
and the secret are non-empty; consequently, in every reachable state the
verification result is Indeterminate only when the token is empty, the
secret is empty, or the current token cannot be decoded. -/
theorem token_edit_verification_c4 :
    (∀ (s : AppState) (v : List Char), (decodeJWT v).isOk = false →
      (step s (.editToken v)).isVerified =
        (if v ≠ s.token ∧ v ≠ [] ∧ s.secret ≠ []
         then some (verifyToken v (secretBytes s.secret)) else none)) ∧
    (∀ s : AppState, Reachable s → s.isVerified = none →
      s.token = [] ∨ s.secret = [] ∨ (decodeJWT s.token).isOk = false) := by
  constructor
  · intro s v hbad
    cases hd : decodeJWT v with
    | ok pr =>
      rw [hd] at hbad
      simp [Except.isOk, Except.toBool] at hbad
    | error e =>
      simp only [step, handleTokenChange, hd, applyVerifyEffect]
      by_cases h1 : v = s.token <;> by_cases h2 : v = [] <;> by_cases h3 : s.secret = [] <;>
        simp [h1, h2, h3]
  · exact reachable_indeterminate_inv

theorem token_edit_verification_c4_witness :
    (decodeJWT ['a']).isOk = false ∧
    (step (initState 0) (.editToken ['a'])).isVerified =
      (if ['a'] ≠ (initState 0).token ∧ ['a'] ≠ [] ∧ (initState 0).secret ≠ []
       then some (verifyToken ['a'] (secretBytes (initState 0).secret)) else none) ∧
    ((initState 0).token = [] ∨ (initState 0).secret = [] ∨
      (decodeJWT (initState 0).token).isOk = false) :=
  ⟨rfl, token_edit_verification_c4.1 (initState 0) ['a'] rfl,
    token_edit_verification_c4.2 (initState 0) (Reachable.init 0) rfl⟩

/-- C4 (counterexample): the claim as stated fails twice on the code.
First, after editing the token to the undecodable text `a` from the initial
state, the resting verification state is `Invalid` (`some false`), not
Indeterminate: the verify effect overwrites the handler's `null`.  Second,
the reachable state obtained by emptying the secret and then pasting a
decodable token has verification state Indeterminate with a perfectly
decodable token, so Indeterminate does not imply an undecodable token. -/
theorem token_edit_verification_c4_counterexample :
    (decodeJWT ['a']).isOk = false ∧
    (step (initState 0) (.editToken ['a'])).isVerified = some false ∧
    Reachable (step (step (initState 0) (.editSecret [])) (.editToken sampleToken)) ∧
    (step (step (initState 0) (.editSecret [])) (.editToken sampleToken)).isVerified
      = none ∧
    (decodeJWT
      (step (step (initState 0) (.editSecret [])) (.editToken sampleToken)).token).isOk
      = true :=
  ⟨rfl, rfl,
    Reachable.next (Reachable.next (Reachable.init 0) (.editSecret []))
      (.editToken sampleToken),
    rfl, rfl⟩

/-! ## Claim C6 -/

theorem generateToken_unsupported (s : AppState) (h p : Json) (sk : List Char)
    (hunsup : supportedAlgOf h = none) :
    (generateToken s h p sk).token = s.token ∧
    (generateToken s h p sk).tokenHistory = s.tokenHistory ∧
    (generateToken s h p sk).algorithmSupported = false := by
  unfold generateToken
  have henc : encodeJWT h p (secretBytes sk) = none := by
    unfold encodeJWT
    rw [hunsup]
  simp [henc, hunsup]

/-- C6: for every edit that reaches signing with a header whose `alg` lies
outside the supported set, no token is produced: the token field and the
history keep their previous values (the displayed token is left stale), and
the algorithm-support flag is cleared. -/
theorem unsupported_alg_stale_c6 (s : AppState) (e : Event) (h : Json)
    (hu : eventHeaderUse s e = some h) (hunsup : supportedAlgOf h = none) :
    (step s e).token = s.token ∧ (step s e).tokenHistory = s.tokenHistory ∧
      (step s e).algorithmSupported = false := by
  cases e with
  | editToken v => simp [eventHeaderUse] at hu
  | editHeader v =>
    cases h1 : jsonParseText v with
    | none => simp [eventHeaderUse, h1] at hu
    | some hObj =>
      cases h2 : jsonParseText s.payload with
      | none => simp [eventHeaderUse, h1, h2] at hu
      | some pObj =>
        have hobj : hObj = h := by simpa [eventHeaderUse, h1, h2] using hu
        subst hobj
        simp only [step, handleHeaderChange, h1, h2]
        have hfields := applyVerifyEffect_fields s
          (generateToken { s with header := v } hObj pObj s.secret)
        have hgen := generateToken_unsupported { s with header := v } hObj pObj s.secret
          hunsup
        rw [hfields.1, hfields.2.2.1, hfields.2.2.2, hgen.1, hgen.2.1, hgen.2.2]
        exact ⟨rfl, rfl, rfl⟩
  | editPayload v =>
    cases h1 : jsonParseText s.header with
    | none => simp [eventHeaderUse, h1] at hu
    | some hObj =>
      cases h2 : jsonParseText v with
      | none => simp [eventHeaderUse, h1, h2] at hu
      | some pObj =>
        have hobj : hObj = h := by simpa [eventHeaderUse, h1, h2] using hu
        subst hobj
        simp only [step, handlePayloadChange, h1, h2]
        have hfields := applyVerifyEffect_fields s
          (generateToken { s with payload := v } hObj pObj s.secret)
        have hgen := generateToken_unsupported { s with payload := v } hObj pObj s.secret
          hunsup
        rw [hfields.1, hfields.2.2.1, hfields.2.2.2, hgen.1, hgen.2.1, hgen.2.2]
        exact ⟨rfl, rfl, rfl⟩
  | editSecret v =>
    by_cases hb : isBlank v
    · simp [eventHeaderUse, hb] at hu
    · cases h1 : jsonParseText s.header with
      | none => simp [eventHeaderUse, hb, h1] at hu
      | some hObj =>
        cases h2 : jsonParseText s.payload with
        | none => simp [eventHeaderUse, hb, h1, h2] at hu
        | some pObj =>
          have hobj : hObj = h := by simpa [eventHeaderUse, hb, h1, h2] using hu
          subst hobj
          simp only [step, handleSecretChange, h1, h2, hb, Bool.false_eq_true, if_false]
          have hfields := applyVerifyEffect_fields s
            (generateToken { s with secret := v } hObj pObj v)
          have hgen := generateToken_unsupported { s with secret := v } hObj pObj v
            hunsup
          rw [hfields.1, hfields.2.2.1, hfields.2.2.2, hgen.1, hgen.2.1, hgen.2.2]
          exact ⟨rfl, rfl, rfl⟩

theorem unsupported_alg_stale_c6_witness :
    eventHeaderUse (initState 0) (.editHeader (stringifyText unsupportedHeader)) =
      some unsupportedHeader ∧
    (step (initState 0) (.editHeader (stringifyText unsupportedHeader))).token =
      (initState 0).token ∧
    (step (initState 0) (.editHeader (stringifyText unsupportedHeader))).tokenHistory =
      (initState 0).tokenHistory ∧
    (step (initState 0) (.editHeader (stringifyText unsupportedHeader))).algorithmSupported
      = false := by
  refine ⟨rfl, ?_⟩
  have h := unsupported_alg_stale_c6 (initState 0)
    (.editHeader (stringifyText unsupportedHeader)) unsupportedHeader rfl rfl
  exact ⟨h.1, h.2.1, h.2.2⟩

/-! ## Claim C7 -/

theorem processBatchTokens_eq (secret : List Nat) (newExpTime : Int) (i : Nat)
    (lines : List (List Char)) :
    processBatchTokens secret newExpTime i lines =
      ((List.enumFrom i lines).filterMap (batchResultEntry secret newExpTime),
       (List.enumFrom i lines).filterMap (batchErrorEntry secret newExpTime)) := by
  induction lines generalizing i with
  | nil => rfl
  | cons tok rest ih =>
    simp only [processBatchTokens, ih (i + 1), List.enumFrom, List.filterMap_cons]
    cases hd : decodeAndSign secret newExpTime (trimChars tok) with
    | none => simp [batchResultEntry, batchErrorEntry, hd]
    | some v =>
      obtain ⟨h, p2, nt⟩ := v
      simp [batchResultEntry, batchErrorEntry, hd]

theorem mem_filterMap_enumFrom_ge {f : Nat × List Char → Option Nat}
    (hf : ∀ p n, f p = some n → n = p.1 + 1) :
    ∀ (j : Nat) (ls : List (List Char)) (m : Nat),
      m ∈ (List.enumFrom j ls).filterMap f → j + 1 ≤ m := by
  intro j ls
  induction ls generalizing j with
  | nil => intro m hm; simp [List.enumFrom] at hm
  | cons tok rest ih =>
    intro m hm
    simp only [List.enumFrom, List.filterMap_cons] at hm
    cases hfj : f (j, tok) with
    | none =>
      simp only [hfj] at hm
      have := ih (j + 1) m hm
      omega
    | some n =>
      simp only [hfj] at hm
      rcases List.mem_cons.mp hm with h1 | h2
      · have h3 : n = j + 1 := hf _ _ hfj
        omega
      · have := ih (j + 1) m h2
        omega

theorem pairwise_filterMap_enumFrom {f : Nat × List Char → Option Nat}
    (hf : ∀ p n, f p = some n → n = p.1 + 1) :
    ∀ (j : Nat) (ls : List (List Char)),
      ((List.enumFrom j ls).filterMap f).Pairwise (· < ·) := by
  intro j ls
  induction ls generalizing j with
  | nil => simp [List.enumFrom]
  | cons tok rest ih =>
    simp only [List.enumFrom, List.filterMap_cons]
    cases hfj : f (j, tok) with
    | none => exact ih (j + 1)
    | some n =>
      refine List.Pairwise.cons ?_ (ih (j + 1))
      intro m hm
      have h1 : n = j + 1 := hf _ _ hfj
      have h2 := mem_filterMap_enumFrom_ge hf (j + 1) rest m hm
      omega

/-- C7: batch processing handles each 1-indexed trimmed line independently —
the results are exactly the per-line successes of the enumerated lines and
the errors exactly the per-line failure line numbers, each in original line
order (so a failing line contributes exactly one error entry, never appears
in the results, and aborts nothing); both line-number sequences are strictly
increasing; and on 3 lines with line 2 malformed, the results are exactly
the entries for lines 1 and 3 in that order and the errors exactly line 2. -/
theorem batch_line_independence_c7 (secret : List Nat) (newExpTime : Int)
    (lines : List (List Char)) :
    processBatchTokens secret newExpTime 0 lines =
      ((List.enumFrom 0 lines).filterMap (batchResultEntry secret newExpTime),
       (List.enumFrom 0 lines).filterMap (batchErrorEntry secret newExpTime)) ∧
    ((processBatchTokens secret newExpTime 0 lines).1.map
        (fun b => b.lineNumber)).Pairwise (· < ·) ∧
    (processBatchTokens secret newExpTime 0 lines).2.Pairwise (· < ·) ∧
    (processBatchTokens sampleSecret 5 0 [sampleToken, ['x'], sampleToken]).1.map
        (fun b => (b.lineNumber, b.original)) = [(1, sampleToken), (3, sampleToken)] ∧
    (processBatchTokens sampleSecret 5 0 [sampleToken, ['x'], sampleToken]).2 = [2] := by
  refine ⟨processBatchTokens_eq secret newExpTime 0 lines, ?_, ?_, rfl, rfl⟩
  · rw [processBatchTokens_eq secret newExpTime 0 lines]
    simp only [List.map_filterMap]
    refine pairwise_filterMap_enumFrom ?_ 0 lines
    intro p n hpn
    revert hpn
    cases hd : decodeAndSign secret newExpTime (trimChars p.2) with
    | none => simp [batchResultEntry, hd]
    | some v =>
      obtain ⟨h, p2, nt⟩ := v
      simp only [batchResultEntry, hd, Option.map_some']
      intro he
      have := Option.some.inj he
      omega
  · rw [processBatchTokens_eq secret newExpTime 0 lines]
    refine pairwise_filterMap_enumFrom ?_ 0 lines
    intro p n hpn
    revert hpn
    cases hd : decodeAndSign secret newExpTime (trimChars p.2) with
    | some v => simp [batchErrorEntry, hd]
    | none =>
      simp only [batchErrorEntry, hd]
      intro he
      have := Option.some.inj he
      omega

/-! ## Claim C10 -/

theorem decodeJWT_signature_irrelevant {a b c c1 : List Char}
    (ha : '.' ∉ a) (hb : '.' ∉ b) (hc : '.' ∉ c) (hc1 : '.' ∉ c1)
    (na : a ≠ []) (nb : b ≠ []) (nc : c ≠ []) (nc1 : c1 ≠ []) :
    decodeJWT (a ++ '.' :: b ++ '.' :: c) = decodeJWT (a ++ '.' :: b ++ '.' :: c1) := by
  unfold decodeJWT
  rw [split3_of_segments ha hb hc na nb nc, split3_of_segments ha hb hc1 na nb nc1]

theorem hmac_length_ge_two (alg : Alg) (key msg : List Nat) :
    2 ≤ (hmac alg key msg).length := by
  simp [hmac]
  omega

theorem verifyJWT_bogusToken (key : List Nat) :
    verifyJWT bogusToken key = .ok false := by
  have h1 : split3 bogusToken = some (sampleSegments.1, sampleSegments.2.1, ['x', 'y']) :=
    rfl
  have h2 : b64Decode sampleSegments.1 = some (serialize sampleHeader) := rfl
  have h3 : parseTop (serialize sampleHeader) = some sampleHeader := rfl
  have h4 : supportedAlgOf sampleHeader = some .HS256 := rfl
  simp only [verifyJWT, h1, h2, h3, h4]
  congr 1
  rw [decide_eq_false]
  intro heq
  have h5 : b64Decode ['x', 'y'] = some [199] := rfl
  rw [h5] at heq
  have h6 := Option.some.inj heq
  have h7 := congrArg List.length h6
  have h8 := hmac_length_ge_two .HS256 key
    (signingInput sampleSegments.1 sampleSegments.2.1)
  simp at h7
  omega

/-- C10: a batch line whose header and payload segments decode is re-signed
with the session secret with no verification of its original signature: the
processed single line yields exactly its success entry, the result of
decoding never depends on the signature segment, and the concrete
`bogusToken` — whose signature segment matches no key at all (`verifyJWT`
answers `false` for every key) — is still accepted. -/
theorem batch_resigns_without_verify_c10 (secret : List Nat) (newExpTime : Int)
    (t nt : List Char) (h p : Json)
    (htrim : trimChars t = t)
    (hdec : decodeJWT t = .ok (h, p))
    (henc : encodeJWT h (setMember p expKey (.jnum newExpTime)) secret = some nt) :
    processBatchTokens secret newExpTime 0 [t] =
      ([{ original := t, newToken := nt, header := h,
          payload := setMember p expKey (.jnum newExpTime),
          newExp := newExpTime, lineNumber := 1 }], []) ∧
    (∀ a b c c1 : List Char, '.' ∉ a → '.' ∉ b → '.' ∉ c → '.' ∉ c1 →
      a ≠ [] → b ≠ [] → c ≠ [] → c1 ≠ [] →
      decodeAndSign secret newExpTime (a ++ '.' :: b ++ '.' :: c) =
        decodeAndSign secret newExpTime (a ++ '.' :: b ++ '.' :: c1)) ∧
    (∀ key : List Nat, verifyJWT bogusToken key = .ok false) := by
  refine ⟨?_, ?_, verifyJWT_bogusToken⟩
  · simp [processBatchTokens, decodeAndSign, htrim, hdec, henc]
  · intro a b c c1 ha hb hc hc1 na nb nc nc1
    unfold decodeAndSign
    rw [decodeJWT_signature_irrelevant ha hb hc hc1 na nb nc nc1]

theorem batch_resigns_without_verify_c10_witness :
    processBatchTokens sampleSecret 5 0 [bogusToken] =
      ([{ original := bogusToken,
          newToken := (encodeJWT sampleHeader (setMember samplePayload expKey (.jnum 5))
            sampleSecret).getD [],
          header := sampleHeader,
          payload := setMember samplePayload expKey (.jnum 5),
          newExp := 5, lineNumber := 1 }], []) ∧
    verifyJWT bogusToken sampleSecret = .ok false :=
  ⟨(batch_resigns_without_verify_c10 sampleSecret 5 bogusToken
      ((encodeJWT sampleHeader (setMember samplePayload expKey (.jnum 5))
        sampleSecret).getD [])
      sampleHeader samplePayload rfl rfl rfl).1,
   (batch_resigns_without_verify_c10 sampleSecret 5 bogusToken
      ((encodeJWT sampleHeader (setMember samplePayload expKey (.jnum 5))
        sampleSecret).getD [])
      sampleHeader samplePayload rfl rfl rfl).2.2 sampleSecret⟩

/-! ## Claim C8 -/

theorem take_append_of_take {α : Type} : ∀ (n m : Nat) (xs ys : List α), n ≤ m →
    (xs ++ ys.take m).take n = (xs ++ ys).take n := by
  intro n m xs
  induction xs generalizing n with
  | nil =>
    intro ys h
    simp only [List.nil_append, List.take_take]
    rw [Nat.min_eq_left h]
  | cons x xs ih =>
    intro ys h
    cases n with
    | zero => simp
    | succ k =>
      simp only [List.cons_append, List.take_succ_cons]
      rw [ih k ys (by omega)]

theorem pushHistory_foldl (items : List HistoryEntry) :
    ∀ hist : List HistoryEntry, hist.length ≤ 10 →
      List.foldl (fun h it => saveToHistory it.token it.header it.payload h) hist items =
        (items.reverse ++ hist).take 10 := by
  induction items with
  | nil =>
    intro hist hlen
    simp only [List.foldl_nil, List.reverse_nil, List.nil_append]
    exact (List.take_of_length_le hlen).symm
  | cons it rest ih =>
    intro hist hlen
    simp only [List.foldl_cons]
    have hsave : saveToHistory it.token it.header it.payload hist = (it :: hist).take 10 :=
      rfl
    rw [hsave, ih ((it :: hist).take 10) (List.length_take_le 10 _)]
    rw [take_append_of_take 10 10 rest.reverse (it :: hist) le_rfl]
    simp [List.append_assoc]

theorem pushAllHistory_eq (items : List HistoryEntry) :
    pushAllHistory items = items.reverse.take 10 := by
  have h := pushHistory_foldl items [] (by simp)
  simpa [pushAllHistory] using h

/-- C8: replaying any sequence of successful encodes through `saveToHistory`
keeps the newest entry first with at most 10 entries and FIFO eviction of
the oldest on overflow (the store is the reversed encode sequence truncated
to 10); after the 11 concrete encodes `entC8 0 … entC8 10` the store holds
exactly the 10 newest entries and the entry of the 1st encode is absent. -/
theorem history_capacity_c8 (items : List HistoryEntry) :
    pushAllHistory items = items.reverse.take 10 ∧
    (pushAllHistory items).length ≤ 10 ∧
    pushAllHistory ((List.range 11).map entC8) =
      [entC8 10, entC8 9, entC8 8, entC8 7, entC8 6,
       entC8 5, entC8 4, entC8 3, entC8 2, entC8 1] ∧
    entC8 0 ∉ pushAllHistory ((List.range 11).map entC8) := by
  refine ⟨pushAllHistory_eq items, ?_, rfl, ?_⟩
  · rw [pushAllHistory_eq]
    exact List.length_take_le 10 _
  · intro hmem
    have h2 := List.mem_map_of_mem HistoryEntry.token hmem
    revert h2
    decide

/-! ## Claim C9 -/

set_option maxHeartbeats 4000000 in
theorem civil_aux (z era r400 q100 q4 q1 doy mp m d y : Int)
    (he : era = (z + 719468) / 146097) (hr : r400 = (z + 719468) % 146097)
    (h100 : q100 = min (r400 / 36524) 3)
    (h4 : q4 = (r400 - 36524 * q100) / 1461)
    (h1 : q1 = min ((r400 - 36524 * q100 - 1461 * q4) / 365) 3)
    (hdoy : doy = r400 - 36524 * q100 - 1461 * q4 - 365 * q1)
    (hmp : mp = (5 * doy + 2) / 153)
    (hd : d = doy - (153 * mp + 2) / 5 + 1)
    (hm : m = mp + (if mp < 10 then 3 else -9))
    (hy : y = 100 * q100 + 4 * q4 + q1 + era * 400 + (if m ≤ 2 then 1 else 0)) :
    daysFromCivil y m d = z := by
  have hb100 : 0 ≤ q100 ∧ q100 ≤ 3 := by omega
  have hb4 : 0 ≤ q4 ∧ q4 ≤ 24 := by omega
  have hb1 : 0 ≤ q1 ∧ q1 ≤ 3 := by omega
  have hbdoy : 0 ≤ doy ∧ doy ≤ 365 := by omega
  have hbmp : 0 ≤ mp ∧ mp ≤ 11 := by omega
  simp only [daysFromCivil]
  by_cases hc : mp < 10
  · rw [if_pos hc] at hm
    have hm2 : ¬ (m ≤ 2) := by omega
    have hm3 : m > 2 := by omega
    rw [if_neg hm2] at hy
    rw [if_neg hm2, if_pos hm3, hy, hm]
    rw [(by ring : mp + 3 + -3 = mp)]
    rw [(by ring : (100 * q100 + 4 * q4 + q1 + era * 400 + 0 - 0 : Int)
          = 100 * q100 + 4 * q4 + q1 + era * 400)]
    have e1 : (100 * q100 + 4 * q4 + q1 + era * 400) / 400 = era := by omega
    have e2 : (100 * q100 + 4 * q4 + q1 + era * 400) % 400 = 100 * q100 + 4 * q4 + q1 := by
      omega
    rw [e1, e2]
    have e3 : (100 * q100 + 4 * q4 + q1) / 100 = q100 := by omega
    have e4 : (100 * q100 + 4 * q4 + q1) % 100 = 4 * q4 + q1 := by omega
    rw [e3, e4]
    have e5 : (4 * q4 + q1) / 4 = q4 := by omega
    have e6 : (4 * q4 + q1) % 4 = q1 := by omega
    rw [e5, e6]
    omega
  · rw [if_neg hc] at hm
    have hm2 : m ≤ 2 := by omega
    have hm3 : ¬ (m > 2) := by omega
    rw [if_pos hm2] at hy
    rw [if_pos hm2, if_neg hm3, hy, hm]
    rw [(by ring : mp + -9 + 9 = mp)]
    rw [(by ring : (100 * q100 + 4 * q4 + q1 + era * 400 + 1 - 1 : Int)
          = 100 * q100 + 4 * q4 + q1 + era * 400)]
    have e1 : (100 * q100 + 4 * q4 + q1 + era * 400) / 400 = era := by omega
    have e2 : (100 * q100 + 4 * q4 + q1 + era * 400) % 400 = 100 * q100 + 4 * q4 + q1 := by
      omega
    rw [e1, e2]
    have e3 : (100 * q100 + 4 * q4 + q1) / 100 = q100 := by omega
    have e4 : (100 * q100 + 4 * q4 + q1) % 100 = 4 * q4 + q1 := by omega
    rw [e3, e4]
    have e5 : (4 * q4 + q1) / 4 = q4 := by omega
    have e6 : (4 * q4 + q1) % 4 = q1 := by omega
    rw [e5, e6]
    omega

theorem civil_roundtrip (z : Int) :
    daysFromCivil (civilFromDays z).1 (civilFromDays z).2.1 (civilFromDays z).2.2 = z := by
  exact civil_aux z _ _ _ _ _ _ _ _ _ _ rfl rfl rfl rfl rfl rfl rfl rfl rfl rfl

set_option maxHeartbeats 1000000 in
theorem civil_bounds (z era r400 q100 q4 q1 doy mp m d : Int)
    (he : era = (z + 719468) / 146097) (hr : r400 = (z + 719468) % 146097)
    (h100 : q100 = min (r400 / 36524) 3)
    (h4 : q4 = (r400 - 36524 * q100) / 1461)
    (h1 : q1 = min ((r400 - 36524 * q100 - 1461 * q4) / 365) 3)
    (hdoy : doy = r400 - 36524 * q100 - 1461 * q4 - 365 * q1)
    (hmp : mp = (5 * doy + 2) / 153)
    (hd : d = doy - (153 * mp + 2) / 5 + 1)
    (hm : m = mp + (if mp < 10 then 3 else -9)) :
    1 ≤ m ∧ m ≤ 12 ∧ 1 ≤ d ∧ d ≤ 31 := by
  have hbdoy : 0 ≤ doy ∧ doy ≤ 365 := by omega
  have hbmp : 0 ≤ mp ∧ mp ≤ 11 := by omega
  by_cases hc : mp < 10
  · rw [if_pos hc] at hm
    omega
  · rw [if_neg hc] at hm
    omega

theorem civilFromDays_bounds (z : Int) :
    1 ≤ (civilFromDays z).2.1 ∧ (civilFromDays z).2.1 ≤ 12 ∧
    1 ≤ (civilFromDays z).2.2 ∧ (civilFromDays z).2.2 ≤ 31 := by
  exact civil_bounds z _ _ _ _ _ _ _ _ _ rfl rfl rfl rfl rfl rfl rfl rfl rfl

theorem char_ofNat_toNat : ∀ b : Nat, b < 256 → (Char.ofNat b).toNat = b := by decide

theorem charsOfBytes_toNat {bs : List Nat} (h : ∀ b ∈ bs, b < 256) :
    (charsOfBytes bs).map Char.toNat = bs := by
  induction bs with
  | nil => rfl
  | cons b rest ih =>
    have hb := char_ofNat_toNat b (h b (List.mem_cons_self b rest))
    have hr := ih (fun x hx => h x (List.mem_cons_of_mem b hx))
    simp only [charsOfBytes, List.map_cons] at *
    rw [hb, hr]

theorem padNat_digit {k n b : Nat} (hb : b ∈ padNat k n) : 48 ≤ b ∧ b ≤ 57 := by
  simp only [padNat, List.mem_append] at hb
  rcases hb with h | h
  · have := List.eq_of_mem_replicate h
    omega
  · exact (natDigits_spec n).1 b h

theorem padNat_not_mem {k n s : Nat} (hs : s < 48 ∨ 57 < s) : s ∉ padNat k n := by
  intro hmem
  have := padNat_digit hmem
  omega

theorem yearBytes_mem {y : Int} {b : Nat} (hb : b ∈ yearBytes y) :
    b = 45 ∨ (48 ≤ b ∧ b ≤ 57) := by
  unfold yearBytes at hb
  by_cases hy : y < 0
  · rw [if_pos hy] at hb
    rcases List.mem_cons.mp hb with h | h
    · exact Or.inl h
    · exact Or.inr (padNat_digit h)
  · rw [if_neg hy] at hb
    exact Or.inr (padNat_digit hb)

theorem digitsVal_replicate48_append (j : Nat) (ds : List Nat) :
    digitsVal (List.replicate j 48 ++ ds) = digitsVal ds := by
  induction j with
  | zero => rfl
  | succ j ih =>
    simp only [List.replicate_succ, List.cons_append, digitsVal, List.foldl_cons]
    have h0 : 0 * 10 + (48 - 48) = 0 := rfl
    rw [h0]
    exact ih

theorem digitsVal_padNat (k n : Nat) : digitsVal (padNat k n) = n := by
  unfold padNat
  rw [digitsVal_replicate48_append]
  exact (natDigits_spec n).2.2

theorem parseNatFull_padNat (k n : Nat) : parseNatFull (padNat k n) = some n := by
  have hds : ∀ b ∈ padNat k n, isDigitB b = true := by
    intro b hb
    have h2 := padNat_digit hb
    simp only [isDigitB, Bool.and_eq_true, decide_eq_true_eq]
    omega
  have hne : padNat k n ≠ [] := fun hcontra =>
    (natDigits_spec n).2.1 ((List.append_eq_nil.mp hcontra).2)
  have h3 := parseNatBytes_of_digits hds hne restOk_nil
  rw [List.append_nil] at h3
  simp only [parseNatFull, h3, digitsVal_padNat]

theorem gmt_roundtrip_aux (E mtotal days rem hh mm y m d : Int)
    (hmt : mtotal = E / 60) (hdays : days = mtotal / 1440) (hrem : rem = mtotal % 1440)
    (hhh : hh = rem / 60) (hmm2 : mm = rem % 60)
    (hy : (civilFromDays days).1 = y) (hm : (civilFromDays days).2.1 = m)
    (hd : (civilFromDays days).2.2 = d) :
    expFromDisplay .gmt (expToDisplay .gmt E) = some (60 * mtotal) := by
  have hb := civilFromDays_bounds days
  rw [hm, hd] at hb
  have hrt := civil_roundtrip days
  rw [hy, hm, hd] at hrt
  have hm0 : (0:Int) ≤ m := by omega
  have hd0 : (0:Int) ≤ d := by omega
  have hh0 : (0:Int) ≤ hh := by omega
  have hmm0 : (0:Int) ≤ mm := by omega
  simp only [expToDisplay, expFromDisplay]
  rw [← hmt, ← hdays, ← hrem, ← hhh, ← hmm2, hy, hm, hd]
  have hblt : ∀ b ∈ yearBytes y ++ 45 :: padNat 2 m.toNat ++ 45 :: padNat 2 d.toNat ++
      84 :: padNat 2 hh.toNat ++ 58 :: padNat 2 mm.toNat, b < 256 := by
    intro b hb2
    simp only [List.mem_append, List.mem_cons] at hb2
    rcases hb2 with (((h | h | h) | h | h) | h | h) | h | h
    · rcases yearBytes_mem h with h2 | h2 <;> omega
    · omega
    · have := padNat_digit h; omega
    · omega
    · have := padNat_digit h; omega
    · omega
    · have := padNat_digit h; omega
    · omega
    · have := padNat_digit h; omega
  rw [charsOfBytes_toNat hblt]
  have hdnot84 : (84:Nat) ∉ yearBytes y ++ 45 :: padNat 2 m.toNat ++ 45 :: padNat 2 d.toNat := by
    intro hm84
    simp only [List.mem_append, List.mem_cons] at hm84
    rcases hm84 with (h | h | h) | h | h
    · rcases yearBytes_mem h with h2 | h2 <;> omega
    · omega
    · have := padNat_digit h; omega
    · omega
    · have := padNat_digit h; omega
  have hnot84time : (84:Nat) ∉ padNat 2 hh.toNat ++ 58 :: padNat 2 mm.toNat := by
    intro hm84
    simp only [List.mem_append, List.mem_cons] at hm84
    rcases hm84 with h | h | h
    · have := padNat_digit h; omega
    · omega
    · have := padNat_digit h; omega
  have hs84 : splitOnAny 84 (yearBytes y ++ 45 :: padNat 2 m.toNat ++
      45 :: padNat 2 d.toNat ++ 84 :: padNat 2 hh.toNat ++ 58 :: padNat 2 mm.toNat) =
      [yearBytes y ++ 45 :: padNat 2 m.toNat ++ 45 :: padNat 2 d.toNat,
       padNat 2 hh.toNat ++ 58 :: padNat 2 mm.toNat] := by
    have hre : yearBytes y ++ 45 :: padNat 2 m.toNat ++ 45 :: padNat 2 d.toNat ++
        84 :: padNat 2 hh.toNat ++ 58 :: padNat 2 mm.toNat =
        (yearBytes y ++ 45 :: padNat 2 m.toNat ++ 45 :: padNat 2 d.toNat) ++
        84 :: (padNat 2 hh.toNat ++ 58 :: padNat 2 mm.toNat) := by
      simp [List.append_assoc]
    rw [hre, splitOnAny_append _ hdnot84, splitOnAny_not_mem hnot84time]
  have hs58 : splitOnAny 58 (padNat 2 hh.toNat ++ 58 :: padNat 2 mm.toNat) =
      [padNat 2 hh.toNat, padNat 2 mm.toNat] := by
    rw [splitOnAny_append _ (padNat_not_mem (by omega)),
      splitOnAny_not_mem (padNat_not_mem (by omega))]
  by_cases hy0 : (0:Int) ≤ y
  · have hyb : yearBytes y = padNat 4 y.toNat := by
      unfold yearBytes
      rw [if_neg (by omega)]
    have hs45 : splitOnAny 45 (yearBytes y ++ 45 :: padNat 2 m.toNat ++
        45 :: padNat 2 d.toNat) = [padNat 4 y.toNat, padNat 2 m.toNat, padNat 2 d.toNat] := by
      rw [hyb]
      simp only [List.cons_append, List.append_assoc]
      rw [splitOnAny_append _ (padNat_not_mem (by omega)),
        splitOnAny_append _ (padNat_not_mem (by omega)),
        splitOnAny_not_mem (padNat_not_mem (by omega))]
    simp only [hs84, hs58, hs45, parseNatFull_padNat]
    rw [Int.toNat_of_nonneg hy0, Int.toNat_of_nonneg hm0, Int.toNat_of_nonneg hd0,
      Int.toNat_of_nonneg hh0, Int.toNat_of_nonneg hmm0, hrt]
    congr 1
    omega
  · have hyb : yearBytes y = 45 :: padNat 4 (-y).toNat := by
      unfold yearBytes
      rw [if_pos (by omega)]
    have h0 := @splitOnAny_append Nat _ 45 []
      (padNat 4 (-y).toNat ++ 45 :: (padNat 2 m.toNat ++ 45 :: padNat 2 d.toNat)) (by simp)
    rw [List.nil_append] at h0
    have hs45 : splitOnAny 45 (yearBytes y ++ 45 :: padNat 2 m.toNat ++
        45 :: padNat 2 d.toNat) =
        [[], padNat 4 (-y).toNat, padNat 2 m.toNat, padNat 2 d.toNat] := by
      rw [hyb]
      simp only [List.cons_append, List.append_assoc]
      rw [h0, splitOnAny_append _ (padNat_not_mem (by omega)),
        splitOnAny_append _ (padNat_not_mem (by omega)),
        splitOnAny_not_mem (padNat_not_mem (by omega))]
    simp only [hs84, hs58, hs45, parseNatFull_padNat]
    have hny : (((-y).toNat : Int)) = -y := Int.toNat_of_nonneg (by omega)
    rw [hny, neg_neg, Int.toNat_of_nonneg hm0, Int.toNat_of_nonneg hd0,
      Int.toNat_of_nonneg hh0, Int.toNat_of_nonneg hmm0, hrt]
    congr 1
    omega

/-- C9: for every integer epoch `E`, the epoch display text parses back to
exactly `E`, and the GMT display text (`YYYY-MM-DDTHH:mm`, truncated to the
minute) parses back to `E` rounded down to the whole minute. -/
theorem exp_display_roundtrip_c9 (E : Int) :
    expFromDisplay .epoch (expToDisplay .epoch E) = some E ∧
    expFromDisplay .gmt (expToDisplay .gmt E) = some (60 * (E / 60)) := by
  constructor
  · simp only [expToDisplay, expFromDisplay]
    have hlt : ∀ b ∈ intSerBytes E, b < 256 := by
      intro b hb
      unfold intSerBytes at hb
      by_cases hneg : E < 0
      · rw [if_pos hneg] at hb
        rcases List.mem_cons.mp hb with h | h
        · omega
        · have := ((natDigits_spec (-E).toNat).1) b h
          omega
      · rw [if_neg hneg] at hb
        have := ((natDigits_spec E.toNat).1) b hb
        omega
    rw [charsOfBytes_toNat hlt]
    have hp := @parseIntBytes_roundtrip E [] restOk_nil
    rw [List.append_nil] at hp
    rw [hp]
    rfl
  · exact gmt_roundtrip_aux E (E / 60) (E / 60 / 1440) (E / 60 % 1440)
      (E / 60 % 1440 / 60) (E / 60 % 1440 % 60) _ _ _
      rfl rfl rfl rfl rfl rfl rfl rfl
